import Mathlib

/-!
# GoalKeepr `utils/stripe_char.go`: full-width punctuation converter

A shallow embedding of `convertPunctuation` and `main` from
`src/utils/stripe_char.go`, together with the parts of the Go runtime and
standard library whose behaviour the program relies on:

* a Go `string` is a finite sequence of bytes (not necessarily valid UTF-8);
* `for _, r := range input` decodes the bytes with the runtime function
  `decoderune` (an undecodable byte yields `U+FFFD` and advances one byte);
* `string(output)` for `output : []rune` encodes with the runtime function
  `encoderune`;
* `strings.TrimSuffix`, `bufio.Scanner` with `bufio.ScanLines`, `bufio.Writer`.
-/

namespace StripeChar

/-! ## Go strings and runes -/

/-- A Go `byte`. -/
abbrev Byte := Fin 256

/-- A Go `string`: an immutable sequence of bytes. -/
abbrev GoString := List Byte

/-! A Go `rune` is modelled as a natural number.  Go declares `rune` as
`int32`; every rune the program handles comes out of `decoderune` or out of
the substitution table and is therefore non-negative. -/

/-- The Go conversion `byte(x)`: keeps the low eight bits. -/
def byte (x : Nat) : Byte := ⟨x % 256, Nat.mod_lt _ (by decide)⟩

/-! ### Constants of `runtime/utf8.go` -/

def runeError : Nat := 0xFFFD
def runeSelf : Nat := 0x80
def maxRune : Nat := 0x10FFFF
def surrogateMin : Nat := 0xD800
def surrogateMax : Nat := 0xDFFF
def tx : Nat := 0x80
def t2 : Nat := 0xC0
def t3 : Nat := 0xE0
def t4 : Nat := 0xF0
def t5 : Nat := 0xF8
def maskx : Nat := 0x3F
def mask2 : Nat := 0x1F
def mask3 : Nat := 0x0F
def mask4 : Nat := 0x07
def rune1Max : Nat := (1 <<< 7) - 1
def rune2Max : Nat := (1 <<< 11) - 1
def rune3Max : Nat := (1 <<< 16) - 1
def locb : Nat := 0x80
def hicb : Nat := 0xBF

/-- The byte `s[i]` as a number (used only below the length of `s`). -/
def at_ (s : GoString) (i : Nat) : Nat := (s.getD i 0).val

/-- The runtime function `decoderune(s, k)`, on the suffix `s[k:]`: the rune
that starts there and the number of bytes it occupies.  Anything that is not
a well-formed, shortest-form encoding of a Unicode scalar value gives
`(runeError, 1)`. -/
def decoderune (s : GoString) : Nat × Nat :=
  match s with
  | [] => (runeError, 1)
  | s0 :: _ =>
    if t2 ≤ s0.val ∧ s0.val < t3 then
      -- 0080-07FF two byte sequence
      if s.length > 1 ∧ (locb ≤ at_ s 1 ∧ at_ s 1 ≤ hicb) then
        let r := ((s0.val &&& mask2) <<< 6) ||| (at_ s 1 &&& maskx)
        if rune1Max < r then (r, 2) else (runeError, 1)
      else (runeError, 1)
    else if t3 ≤ s0.val ∧ s0.val < t4 then
      -- 0800-FFFF three byte sequence
      if s.length > 2 ∧ (locb ≤ at_ s 1 ∧ at_ s 1 ≤ hicb)
          ∧ (locb ≤ at_ s 2 ∧ at_ s 2 ≤ hicb) then
        let r := ((s0.val &&& mask3) <<< 12) ||| ((at_ s 1 &&& maskx) <<< 6)
          ||| (at_ s 2 &&& maskx)
        if rune2Max < r ∧ ¬ (surrogateMin ≤ r ∧ r ≤ surrogateMax) then (r, 3)
        else (runeError, 1)
      else (runeError, 1)
    else if t4 ≤ s0.val ∧ s0.val < t5 then
      -- 10000-1FFFFF four byte sequence
      if s.length > 3 ∧ (locb ≤ at_ s 1 ∧ at_ s 1 ≤ hicb)
          ∧ (locb ≤ at_ s 2 ∧ at_ s 2 ≤ hicb)
          ∧ (locb ≤ at_ s 3 ∧ at_ s 3 ≤ hicb) then
        let r := ((s0.val &&& mask4) <<< 18) ||| ((at_ s 1 &&& maskx) <<< 12)
          ||| ((at_ s 2 &&& maskx) <<< 6) ||| (at_ s 3 &&& maskx)
        if rune3Max < r ∧ r ≤ maxRune then (r, 4) else (runeError, 1)
      else (runeError, 1)
    else (runeError, 1)

/-- One step of `for _, r := range s` on a non-empty rest `s`: a byte below
`runeSelf` is its own rune, anything else goes through `decoderune`. -/
def rangeNext (s : GoString) : Nat × Nat :=
  if at_ s 0 < runeSelf then (at_ s 0, 1) else decoderune s

/-- The runtime function `encoderune`: the UTF-8 bytes of one rune.  Values
above `maxRune` and surrogates are written as `runeError`. -/
def encoderune (r : Nat) : GoString :=
  if r ≤ rune1Max then
    [byte r]
  else if r ≤ rune2Max then
    [byte (t2 ||| (byte (r >>> 6)).val),
     byte (tx ||| ((byte r).val &&& maskx))]
  else
    let r := if r > maxRune ∨ (surrogateMin ≤ r ∧ r ≤ surrogateMax) then runeError else r
    if r ≤ rune3Max then
      [byte (t3 ||| (byte (r >>> 12)).val),
       byte (tx ||| ((byte (r >>> 6)).val &&& maskx)),
       byte (tx ||| ((byte r).val &&& maskx))]
    else
      [byte (t4 ||| (byte (r >>> 18)).val),
       byte (tx ||| ((byte (r >>> 12)).val &&& maskx)),
       byte (tx ||| ((byte (r >>> 6)).val &&& maskx)),
       byte (tx ||| ((byte r).val &&& maskx))]

/-- The conversion `string(a)` of `a : []rune` (runtime `slicerunetostring`):
the concatenation of the encodings of the runes. -/
def slicerunetostring (a : List Nat) : GoString :=
  match a with
  | [] => []
  | r :: rest => encoderune r ++ slicerunetostring rest

/-- The bytes a Go source literal denotes: the UTF-8 encoding of its text. -/
def lit (s : String) : GoString := slicerunetostring (s.toList.map Char.toNat)

/-- The runes that `for _, r := range s` yields, in order, within `fuel`
iterations.  Each iteration consumes at least one byte. -/
def rangeRunes (fuel : Nat) (s : GoString) : List Nat :=
  match fuel with
  | 0 => []
  | fuel + 1 =>
    match s with
    | [] => []
    | _ :: _ => (rangeNext s).1 :: rangeRunes fuel (s.drop (rangeNext s).2)

/-- The conversion `[]rune(s)`: the code points of `s` as Go reads them. -/
def stringtoslicerune (s : GoString) : List Nat := rangeRunes s.length s

/-! ## `convertPunctuation` -/

/-- The map literal `punctuationMap` of `convertPunctuation`, in source order. -/
def punctuationMap : List (Nat × Nat) :=
  [ ('。'.toNat, '.'.toNat),
    ('，'.toNat, ','.toNat),
    ('、'.toNat, ','.toNat),
    ('；'.toNat, ';'.toNat),
    ('：'.toNat, ':'.toNat),
    ('！'.toNat, '!'.toNat),
    ('？'.toNat, '?'.toNat),
    ('）'.toNat, ')'.toNat),
    ('（'.toNat, '('.toNat),
    ('】'.toNat, ']'.toNat),
    ('【'.toNat, '['.toNat),
    ('“'.toNat, '"'.toNat),
    ('”'.toNat, '"'.toNat),
    ('‘'.toNat, 0x27),
    ('’'.toNat, 0x27) ]

/-- The loop `for _, r := range input { ... }` of `convertPunctuation`, with
`output` the slice built so far. -/
def convertLoop (fuel : Nat) (s : GoString) (output : List Nat) : List Nat :=
  match fuel with
  | 0 => output
  | fuel + 1 =>
    match s with
    | [] => output
    | _ :: _ =>
      let r := (rangeNext s).1
      match punctuationMap.lookup r with
      | some replacement => convertLoop fuel (s.drop (rangeNext s).2) (output ++ [replacement])
      | none => convertLoop fuel (s.drop (rangeNext s).2) (output ++ [r])

/-- The function `convertPunctuation`.  The loop runs at most once per byte
of `input`, so `input.length` iterations always reach the end. -/
def convertPunctuation (input : GoString) : GoString :=
  slicerunetostring (convertLoop input.length input [])

/-! ## Scalar values, substitution, valid UTF-8 -/

/-- Go's `utf8.ValidRune`: a Unicode scalar value. -/
def validRune (r : Nat) : Prop := r ≤ maxRune ∧ ¬ (surrogateMin ≤ r ∧ r ≤ surrogateMax)

instance (r : Nat) : Decidable (validRune r) := by
  unfold validRune; infer_instance

/-! ## Specification-side notions -/

/-- The substitution function: the table's value at a key, the rune itself
anywhere else. -/
def substitute (r : Nat) : Nat :=
  match punctuationMap.lookup r with
  | some replacement => replacement
  | none => r

/-- The loop of Go's `utf8.ValidString`, phrased with the decoder above: no
step hits an undecodable byte. -/
def validLoop (fuel : Nat) (s : GoString) : Bool :=
  match fuel with
  | 0 => true
  | fuel + 1 =>
    match s with
    | [] => true
    | _ :: _ =>
      if rangeNext s = (runeError, 1) then false
      else validLoop fuel (s.drop (rangeNext s).2)

/-- Whether `s` is valid UTF-8 (`utf8.ValidString(s)`). -/
def validString (s : GoString) : Bool := validLoop s.length s

/-! ## Standard-library functions used by `main` -/

/-- Go's `strings.HasSuffix`. -/
def HasSuffix (s suffix : GoString) : Bool :=
  decide (s.length ≥ suffix.length) && (s.drop (s.length - suffix.length) == suffix)

/-- Go's `strings.TrimSuffix`: `s` without the trailing `suffix`, or `s`
itself when it does not end with `suffix`. -/
def TrimSuffix (s suffix : GoString) : GoString :=
  if HasSuffix s suffix then s.take (s.length - suffix.length) else s

/-- The value of `outputFile` in `main` for a given `inputFile`. -/
def outputFile (inputFile : GoString) : GoString :=
  TrimSuffix inputFile (lit ".txt") ++ lit "_converted.txt"

/-- Go's `bytes.IndexByte`: the position of the first `c` in `data`. -/
def IndexByte (data : GoString) (c : Byte) : Option Nat :=
  match data with
  | [] => none
  | b :: rest => if b = c then some 0 else (IndexByte rest c).map (· + 1)

/-- The helper `dropCR` of `bufio`: drops one trailing carriage return. -/
def dropCR (data : GoString) : GoString :=
  if data.length > 0 ∧ at_ data (data.length - 1) = 13 then data.take (data.length - 1)
  else data

/-- Go's `bufio.MaxScanTokenSize`: the size to which the buffer of a
`bufio.Scanner` grows at most. -/
def MaxScanTokenSize : Nat := 64 * 1024

/-- The text of `bufio.ErrTooLong`. -/
def ErrTooLong : GoString := lit "bufio.Scanner: token too long"

/-- Go's `bufio.ScanLines` on the buffered bytes `data`: how far to advance
and the next line, or no token (`nil`) when more data is needed or the input
has ended. -/
def ScanLines (data : GoString) (atEOF : Bool) : Nat × Option GoString :=
  if atEOF = true ∧ data.length = 0 then (0, none)
  else
    match IndexByte data 10 with
    | some i => (i + 1, some (dropCR (data.take i)))
    | none => if atEOF = true then (data.length, some (dropCR data)) else (0, none)

/-- A `bufio.Scanner` with the default split function and the default
buffer on the unread bytes `rest` of the input, within `fuel` calls of
`Scan`: the tokens it delivers and whether it stops with `ErrTooLong`.  The
buffer holds the unread bytes from the start of the next token, at most
`MaxScanTokenSize` of them; the scanner learns that the input has ended only
from a read into a buffer that is not full, and a full buffer without a
token ends the scan with `ErrTooLong`.  Every delivered token advances by at
least one byte. -/
def scanTokens (fuel : Nat) (rest : GoString) : List GoString × Bool :=
  match fuel with
  | 0 => ([], false)
  | fuel + 1 =>
    let atEOF := decide (rest.length < MaxScanTokenSize)
    match ScanLines (rest.take MaxScanTokenSize) atEOF with
    | (advance, some token) =>
      ((token :: (scanTokens fuel (rest.drop advance)).1),
        (scanTokens fuel (rest.drop advance)).2)
    | (_, none) => ([], !atEOF)

/-- The scan of a whole file whose reads deliver `data` without a fault: the
lines as `scanner.Text()` gives them, and whether the scan ends with
`ErrTooLong`. -/
def scanFile (data : GoString) : List GoString × Bool := scanTokens data.length data

/-! ## The run and its environment -/

/-- What a run does to the outside world, in order. -/
inductive Event where
  /-- Text printed on standard output (`fmt.Println`, `fmt.Printf`). -/
  | print (text : GoString)
  /-- The call `os.Open(name)` and whether it succeeded. -/
  | openFile (name : GoString) (ok : Bool)
  /-- The call `os.Create(name)` (create or truncate) and whether it succeeded. -/
  | createFile (name : GoString) (ok : Bool)
  /-- The bytes `data` reached the file `name` through one call of `Write`. -/
  | write (name : GoString) (data : GoString)
  /-- The deferred `Close` of the file `name`. -/
  | close (name : GoString)
  deriving DecidableEq

/-- The input of a run that the program does not control. -/
structure Env where
  /-- The call `os.Open(name)`: the bytes of the file, or the text of the error. -/
  openFile : GoString → Except GoString GoString
  /-- The call `os.Create(name)`: `none` on success, or the text of the error. -/
  createFile : GoString → Option GoString
  /-- Whether two paths name one and the same file (a hard or symbolic link). -/
  sameFile : GoString → GoString → Bool
  /-- A failing read of the input file: the tokens the scanner delivers
  before it stops and the text of the read error in `scanner.Err()`; `none`
  when every read succeeds. -/
  scanFault : Option (List GoString × GoString)
  /-- The `k`-th call of `Write` on the output file, counted from 0: `none`
  when it writes all its bytes, `some (n, e)` when it fails with the error
  text `e` after at most `n` bytes. -/
  writeFault : Nat → Option (Nat × GoString)

/-- The `bufio.Writer` on the output file, with the events of the run so
far. -/
structure Writer where
  /-- The buffered bytes `b.buf[:b.n]`. -/
  buf : GoString
  /-- The sticky error `b.err`. -/
  err : Option GoString
  /-- Number of calls of `Write` made on the file. -/
  calls : Nat
  /-- Events of the run so far. -/
  trace : List Event

/-- The default buffer size of `bufio.NewWriter`. -/
def defaultBufSize : Nat := 4096

/-- The call `bufio.NewWriter(outFile)`, in a run whose events so far are
`trace`: an empty buffer, no error. -/
def NewWriter (trace : List Event) : Writer :=
  { buf := [], err := none, calls := 0, trace := trace }

/-- One call of `Write` (or `WriteString`) on the output file `name`: the
number of bytes written and the error. -/
def fileWrite (env : Env) (name : GoString) (w : Writer) (data : GoString) :
    Writer × Nat × Option GoString :=
  match env.writeFault w.calls with
  | none =>
    ({ w with calls := w.calls + 1, trace := w.trace ++ [Event.write name data] },
      data.length, none)
  | some (n, e) =>
    ({ w with calls := w.calls + 1, trace := w.trace ++ [Event.write name (data.take n)] },
      min n data.length, some e)

/-- The method `(*bufio.Writer).Flush`. -/
def Flush (env : Env) (name : GoString) (w : Writer) : Writer × Option GoString :=
  match w.err with
  | some e => (w, some e)
  | none =>
    if w.buf.length = 0 then (w, none)
    else
      match fileWrite env name w w.buf with
      | (w1, n, some e) => ({ w1 with buf := w.buf.drop n, err := some e }, some e)
      | (w1, _, none) => ({ w1 with buf := [] }, none)

/-- The loop `for len(s) > b.Available() && b.err == nil` of
`(*bufio.Writer).WriteString`; returns the writer and what is left of `s`.
With an empty buffer the string goes to the file directly (`*os.File` is an
`io.StringWriter`), otherwise the buffer is filled up and flushed. -/
def writeStringLoop (env : Env) (name : GoString) (fuel : Nat) (w : Writer) (s : GoString) :
    Writer × GoString :=
  match fuel with
  | 0 => (w, s)
  | fuel + 1 =>
    if s.length > defaultBufSize - w.buf.length ∧ w.err = none then
      if w.buf.length = 0 then
        match fileWrite env name w s with
        | (w1, n, e) => writeStringLoop env name fuel { w1 with err := e } (s.drop n)
      else
        let n := min (defaultBufSize - w.buf.length) s.length
        let w1 := { w with buf := w.buf ++ s.take n }
        writeStringLoop env name fuel (Flush env name w1).1 (s.drop n)
    else (w, s)

/-- The method `(*bufio.Writer).WriteString`.  Its loop runs at most twice:
after a flush the buffer is empty, and a direct write takes the whole rest. -/
def WriteString (env : Env) (name : GoString) (w : Writer) (s : GoString) :
    Writer × Option GoString :=
  match writeStringLoop env name 2 w s with
  | (w1, s1) =>
    match w1.err with
    | some e => (w1, some e)
    | none => ({ w1 with buf := w1.buf ++ s1 }, none)

/-- The loop `for scanner.Scan() { ... }` of `main` over the lines the
scanner delivers: convert the line, write it with a newline, stop at the
first write error. -/
def scanLoop (env : Env) (name : GoString) (lines : List GoString) (w : Writer) :
    Writer × Option GoString :=
  match lines with
  | [] => (w, none)
  | line :: more =>
    let convertedLine := convertPunctuation line
    match WriteString env name w (convertedLine ++ lit "\n") with
    | (w1, some e) => (w1, some e)
    | (w1, none) => scanLoop env name more w1

/-- The bytes the scanner reads from the opened input file, which held
`input` when it was opened.  The reads come after `os.Create(outputFile)`,
which truncates: when both paths name one file nothing is left to read. -/
def bytesRead (env : Env) (inputFile outputFile input : GoString) : GoString :=
  if env.sameFile inputFile outputFile = true then [] else input

/-- The whole loop condition `scanner.Scan()` over the bytes `data`: the
lines delivered, and `scanner.Err()` after the last one. -/
def scanInput (env : Env) (data : GoString) : List GoString × Option GoString :=
  match env.scanFault with
  | some (delivered, e) => (delivered, some e)
  | none =>
    match scanFile data with
    | (lines, true) => (lines, some ErrTooLong)
    | (lines, false) => (lines, none)

/-- The function `main`, run with the argument vector `args` (`os.Args`,
program name first) in the environment `env`: the events of the run. -/
def main (env : Env) (args : List GoString) : List Event :=
  if args.length < 2 then
    [Event.print (lit "Usage: stripe_char <input_file>\n")]
  else
    let inputFile := args.getD 1 []
    let outputFile := TrimSuffix inputFile (lit ".txt") ++ lit "_converted.txt"
    match env.openFile inputFile with
    | Except.error e =>
      [Event.openFile inputFile false,
       Event.print (lit "Error opening file: " ++ e ++ lit "\n")]
    | Except.ok input =>
      match env.createFile outputFile with
      | some e =>
        [Event.openFile inputFile true, Event.createFile outputFile false,
         Event.print (lit "Error creating output file: " ++ e ++ lit "\n"),
         Event.close inputFile]
      | none =>
        let w0 := NewWriter [Event.openFile inputFile true, Event.createFile outputFile true]
        let scanned := scanInput env (bytesRead env inputFile outputFile input)
        match scanLoop env outputFile scanned.1 w0 with
        | (w1, some e) =>
          w1.trace ++ [Event.print (lit "Error writing to output file: " ++ e ++ lit "\n"),
            Event.close outputFile, Event.close inputFile]
        | (w1, none) =>
          match scanned.2 with
          | some e =>
            w1.trace ++ [Event.print (lit "Error reading from input file: " ++ e ++ lit "\n"),
              Event.close outputFile, Event.close inputFile]
          | none =>
            match Flush env outputFile w1 with
            | (w2, some e) =>
              w2.trace ++ [Event.print (lit "Error flushing output buffer: " ++ e ++ lit "\n"),
                Event.close outputFile, Event.close inputFile]
            | (w2, none) =>
              w2.trace ++ [Event.print
                  (lit "Conversion complete. Output written to " ++ outputFile ++ lit "\n"),
                Event.close outputFile, Event.close inputFile]

/-- The bytes that reached the file `name` during a run, in order. -/
def written (name : GoString) (trace : List Event) : GoString :=
  match trace with
  | [] => []
  | Event.write n data :: rest => if n = name then data ++ written name rest else written name rest
  | _ :: rest => written name rest

/-- The pieces of a text between its newlines, with `line` the piece begun
so far; a last piece without a newline counts when it is not empty. -/
def splitNewlines (data : GoString) (line : GoString) : List GoString :=
  match data with
  | [] => if line = [] then [] else [line]
  | b :: rest => if b = 10 then line :: splitNewlines rest [] else splitNewlines rest (line ++ [b])

/-- The lines of a text file: the pieces between its newlines, each without
one trailing carriage return. -/
def textLines (data : GoString) : List GoString := (splitNewlines data []).map dropCR

/-- Whether an event is a write to a file. -/
def Event.isWrite : Event → Bool
  | Event.write _ _ => true
  | _ => false

/-- A sample environment: the file `notes.txt` holds three lines, no other
file can be opened, and nothing else fails. -/
def sampleEnv : Env :=
  { openFile := fun name =>
      if name = lit "notes.txt" then Except.ok (lit "你好，世界！\r\n“测试”：（括号）\nlast")
      else Except.error (lit "open " ++ name ++ lit ": no such file or directory"),
    createFile := fun _ => none,
    sameFile := fun _ _ => false,
    scanFault := none,
    writeFault := fun _ => none }

/-- A line of 65536 letters `a`. -/
def longLine : GoString := List.replicate 65536 (byte 0x61)

/-- An environment in which the input file is the single line `longLine`,
without a newline, and no call fails. -/
def longLineEnv : Env :=
  { openFile := fun _ => Except.ok longLine,
    createFile := fun _ => none,
    sameFile := fun _ _ => false,
    scanFault := none,
    writeFault := fun _ => none }

/-! ## The decoder and the encoder on examples -/

theorem lit_examples :
    lit "a，" = [byte 0x61, byte 0xEF, byte 0xBC, byte 0x8C] ∧
    lit "你" = [byte 0xE4, byte 0xBD, byte 0xA0] ∧
    lit "🙂" = [byte 0xF0, byte 0x9F, byte 0x99, byte 0x82] := by
  decide

theorem stringtoslicerune_examples :
    stringtoslicerune (lit "a，🙂") = [0x61, 0xFF0C, 0x1F642] ∧
    stringtoslicerune [byte 0xC0, byte 0x80] = [runeError, runeError] ∧
    stringtoslicerune [byte 0xED, byte 0xA0, byte 0x80] = [runeError, runeError, runeError] ∧
    stringtoslicerune [byte 0xF4, byte 0x90, byte 0x80, byte 0x80]
      = [runeError, runeError, runeError, runeError] ∧
    stringtoslicerune [byte 0xE4, byte 0xBD] = [runeError, runeError] := by
  decide

/-! ## Bit operations as arithmetic -/

theorem and_maskx (x : Nat) : x &&& maskx = x % 64 :=
  Nat.and_pow_two_sub_one_eq_mod x 6

theorem and_mask2 (x : Nat) : x &&& mask2 = x % 32 :=
  Nat.and_pow_two_sub_one_eq_mod x 5

theorem and_mask3 (x : Nat) : x &&& mask3 = x % 16 :=
  Nat.and_pow_two_sub_one_eq_mod x 4

theorem and_mask4 (x : Nat) : x &&& mask4 = x % 8 :=
  Nat.and_pow_two_sub_one_eq_mod x 3

theorem or_low (i a b : Nat) (h : b < 2 ^ i) : (a * 2 ^ i) ||| b = a * 2 ^ i + b := by
  rw [Nat.mul_comm]
  exact (Nat.mul_add_lt_is_or h a).symm

theorem tx_or (x : Nat) : tx ||| (x &&& maskx) = 128 + x % 64 := by
  rw [and_maskx]
  have h := or_low 6 2 (x % 64) (Nat.mod_lt _ (by decide))
  simpa [tx] using h

theorem t2_or (y : Nat) (h : y < 32) : t2 ||| y = 192 + y := by
  have h := or_low 5 6 y h
  simpa [t2] using h

theorem t3_or (y : Nat) (h : y < 16) : t3 ||| y = 224 + y := by
  have h := or_low 4 14 y h
  simpa [t3] using h

theorem t4_or (y : Nat) (h : y < 8) : t4 ||| y = 240 + y := by
  have h := or_low 3 30 y h
  simpa [t4] using h

theorem dec2_eq (a b : Nat) :
    ((a &&& mask2) <<< 6) ||| (b &&& maskx) = a % 32 * 64 + b % 64 := by
  rw [and_mask2, and_maskx, Nat.shiftLeft_eq]
  exact or_low 6 _ _ (Nat.mod_lt _ (by decide))

theorem dec3_eq (a b c : Nat) :
    ((a &&& mask3) <<< 12) ||| ((b &&& maskx) <<< 6) ||| (c &&& maskx)
      = a % 16 * 4096 + b % 64 * 64 + c % 64 := by
  rw [and_mask3, and_maskx, and_maskx, Nat.shiftLeft_eq, Nat.shiftLeft_eq]
  have h1 : a % 16 * 2 ^ 12 ||| b % 64 * 2 ^ 6 = a % 16 * 2 ^ 12 + b % 64 * 2 ^ 6 :=
    or_low 12 _ _ (by have := Nat.mod_lt b (show 0 < 64 by decide); omega)
  rw [h1]
  have h2 : a % 16 * 2 ^ 12 + b % 64 * 2 ^ 6 = (a % 16 * 64 + b % 64) * 2 ^ 6 := by ring
  have h3 : c % 64 < 2 ^ 6 := Nat.mod_lt _ (by decide)
  rw [h2, or_low 6 _ _ h3]
  ring

theorem dec4_eq (a b c d : Nat) :
    ((a &&& mask4) <<< 18) ||| ((b &&& maskx) <<< 12) ||| ((c &&& maskx) <<< 6)
        ||| (d &&& maskx)
      = a % 8 * 262144 + b % 64 * 4096 + c % 64 * 64 + d % 64 := by
  rw [and_mask4, and_maskx, and_maskx, and_maskx, Nat.shiftLeft_eq, Nat.shiftLeft_eq,
    Nat.shiftLeft_eq]
  have h1 : a % 8 * 2 ^ 18 ||| b % 64 * 2 ^ 12 = a % 8 * 2 ^ 18 + b % 64 * 2 ^ 12 := by
    have e : b % 64 * 2 ^ 12 < 2 ^ 18 := by
      have := Nat.mod_lt b (show 0 < 64 by decide); omega
    exact or_low 18 _ _ e
  rw [h1]
  have h2 : a % 8 * 2 ^ 18 + b % 64 * 2 ^ 12 = (a % 8 * 64 + b % 64) * 2 ^ 12 := by ring
  have h3 : (a % 8 * 64 + b % 64) * 2 ^ 12 ||| c % 64 * 2 ^ 6
      = (a % 8 * 64 + b % 64) * 2 ^ 12 + c % 64 * 2 ^ 6 := by
    have e : c % 64 * 2 ^ 6 < 2 ^ 12 := by
      have := Nat.mod_lt c (show 0 < 64 by decide); omega
    exact or_low 12 _ _ e
  rw [h2, h3]
  have h4 : (a % 8 * 64 + b % 64) * 2 ^ 12 + c % 64 * 2 ^ 6
      = ((a % 8 * 64 + b % 64) * 64 + c % 64) * 2 ^ 6 := by ring
  have h5 : d % 64 < 2 ^ 6 := Nat.mod_lt _ (by decide)
  rw [h4, or_low 6 _ _ h5]
  ring


/-! ## One rune: encoding and decoding -/

theorem byte_val (x : Nat) : (byte x).val = x % 256 := rfl

theorem encoderune_1 (r : Nat) (h : r < 128) : encoderune r = [byte r] := by
  have : r ≤ rune1Max := by simp [rune1Max]; omega
  simp [encoderune, this]

theorem encoderune_2 (r : Nat) (h1 : 128 ≤ r) (h2 : r < 2048) :
    encoderune r = [byte (192 + r / 64), byte (128 + r % 64)] := by
  have a1 : ¬ r ≤ rune1Max := by simp [rune1Max]; omega
  have a2 : r ≤ rune2Max := by simp [rune2Max]; omega
  have e : (byte (r >>> 6)).val = r / 64 := by
    rw [byte_val, Nat.shiftRight_eq_div_pow]; omega
  have e2 : (byte r).val % 64 = r % 64 := by rw [byte_val]; omega
  simp only [encoderune, a1, a2, if_true, if_false, tx_or, e, e2]
  rw [t2_or _ (by omega)]

theorem encoderune_3 (r : Nat) (h1 : 2048 ≤ r) (h2 : r < 65536)
    (h3 : ¬ (surrogateMin ≤ r ∧ r ≤ surrogateMax)) :
    encoderune r = [byte (224 + r / 4096), byte (128 + r / 64 % 64), byte (128 + r % 64)] := by
  have a1 : ¬ r ≤ rune1Max := by simp [rune1Max]; omega
  have a2 : ¬ r ≤ rune2Max := by simp [rune2Max]; omega
  have a3 : ¬ (r > maxRune ∨ (surrogateMin ≤ r ∧ r ≤ surrogateMax)) := by
    simp only [maxRune] at *; omega
  have a4 : r ≤ rune3Max := by simp [rune3Max]; omega
  have e : (byte (r >>> 12)).val = r / 4096 := by
    rw [byte_val, Nat.shiftRight_eq_div_pow]; omega
  have e1 : (byte (r >>> 6)).val % 64 = r / 64 % 64 := by
    rw [byte_val, Nat.shiftRight_eq_div_pow]; omega
  have e2 : (byte r).val % 64 = r % 64 := by rw [byte_val]; omega
  simp only [encoderune, a1, a2, a3, a4, if_true, if_false, tx_or, e, e1, e2]
  rw [t3_or _ (by omega)]

theorem encoderune_4 (r : Nat) (h1 : 65536 ≤ r) (h2 : r ≤ 0x10FFFF) :
    encoderune r = [byte (240 + r / 262144), byte (128 + r / 4096 % 64),
      byte (128 + r / 64 % 64), byte (128 + r % 64)] := by
  have a1 : ¬ r ≤ rune1Max := by simp [rune1Max]; omega
  have a2 : ¬ r ≤ rune2Max := by simp [rune2Max]; omega
  have a3 : ¬ (r > maxRune ∨ (surrogateMin ≤ r ∧ r ≤ surrogateMax)) := by
    simp only [maxRune, surrogateMin, surrogateMax] at *; omega
  have a4 : ¬ r ≤ rune3Max := by simp [rune3Max]; omega
  have e : (byte (r >>> 18)).val = r / 262144 := by
    rw [byte_val, Nat.shiftRight_eq_div_pow]; omega
  have e0 : (byte (r >>> 12)).val % 64 = r / 4096 % 64 := by
    rw [byte_val, Nat.shiftRight_eq_div_pow]; omega
  have e1 : (byte (r >>> 6)).val % 64 = r / 64 % 64 := by
    rw [byte_val, Nat.shiftRight_eq_div_pow]; omega
  have e2 : (byte r).val % 64 = r % 64 := by rw [byte_val]; omega
  simp only [encoderune, a1, a2, a3, a4, if_true, if_false, tx_or, e, e0, e1, e2]
  rw [t4_or _ (by omega)]

theorem encoderune_invalid (r : Nat) (h : ¬ validRune r) :
    encoderune r = encoderune runeError := by
  have a1 : ¬ r ≤ rune1Max := by
    simp only [validRune, rune1Max, maxRune, surrogateMin, surrogateMax] at *; omega
  have a2 : ¬ r ≤ rune2Max := by
    simp only [validRune, rune2Max, maxRune, surrogateMin, surrogateMax] at *; omega
  have a3 : r > maxRune ∨ (surrogateMin ≤ r ∧ r ≤ surrogateMax) := by
    simp only [validRune, maxRune, surrogateMin, surrogateMax] at *; omega
  simp only [encoderune, a1, a2, a3, if_true, if_false]
  rfl

theorem rangeNext_encoderune (r : Nat) (h : validRune r) (rest : GoString) :
    rangeNext (encoderune r ++ rest) = (r, (encoderune r).length) := by
  simp only [validRune, maxRune, surrogateMin, surrogateMax] at h
  by_cases c1 : r < 128
  · rw [encoderune_1 r c1]
    simp only [rangeNext, at_, byte_val, runeSelf, List.singleton_append, List.getD_cons_zero,
      List.length_singleton]
    rw [if_pos (by omega)]
    simp only [Prod.mk.injEq, and_true]
    omega
  by_cases c2 : r < 2048
  · rw [encoderune_2 r (by omega) c2]
    simp only [rangeNext, decoderune, at_, byte_val, runeSelf, dec2_eq, t2, t3, locb, hicb,
      rune1Max, List.cons_append, List.nil_append, List.getD_cons_zero, List.getD_cons_succ,
      List.length_cons, List.length_nil]
    rw [if_neg (by omega), if_pos (by omega), if_pos (by omega), if_pos (by omega)]
    simp only [Prod.mk.injEq, and_true]
    omega
  by_cases c3 : r < 65536
  · rw [encoderune_3 r (by omega) c3 (by simp only [surrogateMin, surrogateMax]; omega)]
    simp only [rangeNext, decoderune, at_, byte_val, runeSelf, dec3_eq, t2, t3, t4, locb, hicb,
      rune2Max, surrogateMin, surrogateMax,
      List.cons_append, List.nil_append, List.getD_cons_zero, List.getD_cons_succ,
      List.length_cons, List.length_nil]
    rw [if_neg (by omega), if_neg (by omega), if_pos (by omega), if_pos (by omega),
      if_pos (by omega)]
    simp only [Prod.mk.injEq, and_true]
    omega
  · rw [encoderune_4 r (by omega) (by omega)]
    simp only [rangeNext, decoderune, at_, byte_val, runeSelf, dec4_eq, t2, t3,
      t4, t5, locb, hicb, rune3Max, maxRune,
      List.cons_append, List.nil_append, List.getD_cons_zero, List.getD_cons_succ,
      List.length_cons, List.length_nil]
    rw [if_neg (by omega), if_neg (by omega), if_neg (by omega), if_pos (by omega),
      if_pos (by omega), if_pos (by omega)]
    simp only [Prod.mk.injEq, and_true]
    omega


/-- What `rangeNext` does on a non-empty string, by the shape of its first
bytes. -/
theorem rangeNext_cases (s0 : Fin 256) (rest : GoString) :
    (s0.val < 128 ∧ rangeNext (s0 :: rest) = (s0.val, 1)) ∨
    (∃ s1 rest', rest = s1 :: rest' ∧ 192 ≤ s0.val ∧ s0.val < 224 ∧
        128 ≤ s1.val ∧ s1.val ≤ 191 ∧ 127 < s0.val % 32 * 64 + s1.val % 64 ∧
        rangeNext (s0 :: rest) = (s0.val % 32 * 64 + s1.val % 64, 2)) ∨
    (∃ s1 s2 rest', rest = s1 :: s2 :: rest' ∧ 224 ≤ s0.val ∧ s0.val < 240 ∧
        128 ≤ s1.val ∧ s1.val ≤ 191 ∧ 128 ≤ s2.val ∧ s2.val ≤ 191 ∧
        2047 < s0.val % 16 * 4096 + s1.val % 64 * 64 + s2.val % 64 ∧
        ¬ (55296 ≤ s0.val % 16 * 4096 + s1.val % 64 * 64 + s2.val % 64 ∧
            s0.val % 16 * 4096 + s1.val % 64 * 64 + s2.val % 64 ≤ 57343) ∧
        rangeNext (s0 :: rest) = (s0.val % 16 * 4096 + s1.val % 64 * 64 + s2.val % 64, 3)) ∨
    (∃ s1 s2 s3 rest', rest = s1 :: s2 :: s3 :: rest' ∧ 240 ≤ s0.val ∧ s0.val < 248 ∧
        128 ≤ s1.val ∧ s1.val ≤ 191 ∧ 128 ≤ s2.val ∧ s2.val ≤ 191 ∧
        128 ≤ s3.val ∧ s3.val ≤ 191 ∧
        65535 < s0.val % 8 * 262144 + s1.val % 64 * 4096 + s2.val % 64 * 64 + s3.val % 64 ∧
        s0.val % 8 * 262144 + s1.val % 64 * 4096 + s2.val % 64 * 64 + s3.val % 64 ≤ 1114111 ∧
        rangeNext (s0 :: rest)
          = (s0.val % 8 * 262144 + s1.val % 64 * 4096 + s2.val % 64 * 64 + s3.val % 64, 4)) ∨
    (128 ≤ s0.val ∧ rangeNext (s0 :: rest) = (runeError, 1)) := by
  by_cases h1 : s0.val < 128
  · left
    exact ⟨h1, by simp [rangeNext, at_, runeSelf, h1]⟩
  have hN : rangeNext (s0 :: rest) = decoderune (s0 :: rest) := by
    simp [rangeNext, at_, runeSelf, h1]
  rw [hN]
  right
  by_cases c2 : 192 ≤ s0.val ∧ s0.val < 224
  · rcases rest with _ | ⟨s1, rest'⟩
    · right; right; right
      exact ⟨by omega, by simp [decoderune, at_, t2, t3, c2]⟩
    · by_cases d : (128 ≤ s1.val ∧ s1.val ≤ 191) ∧ 127 < s0.val % 32 * 64 + s1.val % 64
      · left
        refine ⟨s1, rest', rfl, c2.1, c2.2, d.1.1, d.1.2, d.2, ?_⟩
        simp only [decoderune, at_, t2, t3, locb, hicb, rune1Max, dec2_eq,
          List.getD_cons_zero, List.getD_cons_succ, List.length_cons]
        rw [if_pos c2, if_pos ⟨by omega, d.1⟩, if_pos (by omega)]
      · right; right; right
        refine ⟨by omega, ?_⟩
        simp only [decoderune, at_, t2, t3, locb, hicb, rune1Max, dec2_eq,
          List.getD_cons_zero, List.getD_cons_succ, List.length_cons]
        rw [if_pos c2]
        split_ifs with a b
        · exact absurd ⟨a.2, by omega⟩ d
        · rfl
        · rfl
  right
  by_cases c3 : 224 ≤ s0.val ∧ s0.val < 240
  · rcases rest with _ | ⟨s1, _ | ⟨s2, rest'⟩⟩
    · right; right
      exact ⟨by omega, by simp [decoderune, at_, t2, t3, t4, c2, c3]⟩
    · right; right
      exact ⟨by omega, by simp [decoderune, at_, t2, t3, t4, c2, c3]⟩
    · by_cases d : ((128 ≤ s1.val ∧ s1.val ≤ 191) ∧ (128 ≤ s2.val ∧ s2.val ≤ 191)) ∧
          (2047 < s0.val % 16 * 4096 + s1.val % 64 * 64 + s2.val % 64 ∧
            ¬ (55296 ≤ s0.val % 16 * 4096 + s1.val % 64 * 64 + s2.val % 64 ∧
              s0.val % 16 * 4096 + s1.val % 64 * 64 + s2.val % 64 ≤ 57343))
      · left
        refine ⟨s1, s2, rest', rfl, c3.1, c3.2, d.1.1.1, d.1.1.2, d.1.2.1, d.1.2.2,
          d.2.1, d.2.2, ?_⟩
        simp only [decoderune, at_, t2, t3, t4, locb, hicb, rune2Max, surrogateMin,
          surrogateMax, dec3_eq, List.getD_cons_zero, List.getD_cons_succ, List.length_cons]
        rw [if_neg c2, if_pos c3, if_pos ⟨by omega, d.1.1, d.1.2⟩, if_pos ⟨by omega, d.2.2⟩]
      · right; right
        refine ⟨by omega, ?_⟩
        simp only [decoderune, at_, t2, t3, t4, locb, hicb, rune2Max, surrogateMin,
          surrogateMax, dec3_eq, List.getD_cons_zero, List.getD_cons_succ, List.length_cons]
        rw [if_neg c2, if_pos c3]
        split_ifs with a b
        · exact absurd ⟨⟨a.2.1, a.2.2⟩, by omega, b.2⟩ d
        · rfl
        · rfl
  right
  by_cases c4 : 240 ≤ s0.val ∧ s0.val < 248
  · rcases rest with _ | ⟨s1, _ | ⟨s2, _ | ⟨s3, rest'⟩⟩⟩
    · right
      exact ⟨by omega, by simp [decoderune, at_, t2, t3, t4, t5, c2, c3, c4]⟩
    · right
      exact ⟨by omega, by simp [decoderune, at_, t2, t3, t4, t5, c2, c3, c4]⟩
    · right
      exact ⟨by omega, by simp [decoderune, at_, t2, t3, t4, t5, c2, c3, c4]⟩
    · by_cases d : ((128 ≤ s1.val ∧ s1.val ≤ 191) ∧ (128 ≤ s2.val ∧ s2.val ≤ 191) ∧
            (128 ≤ s3.val ∧ s3.val ≤ 191)) ∧
          (65535 < s0.val % 8 * 262144 + s1.val % 64 * 4096 + s2.val % 64 * 64 + s3.val % 64 ∧
            s0.val % 8 * 262144 + s1.val % 64 * 4096 + s2.val % 64 * 64 + s3.val % 64
              ≤ 1114111)
      · left
        refine ⟨s1, s2, s3, rest', rfl, c4.1, c4.2, d.1.1.1, d.1.1.2, d.1.2.1.1, d.1.2.1.2,
          d.1.2.2.1, d.1.2.2.2, d.2.1, d.2.2, ?_⟩
        simp only [decoderune, at_, t2, t3, t4, t5, locb, hicb, rune3Max, maxRune,
          dec4_eq, List.getD_cons_zero, List.getD_cons_succ, List.length_cons]
        rw [if_neg c2, if_neg c3, if_pos c4, if_pos ⟨by omega, d.1.1, d.1.2.1, d.1.2.2⟩,
          if_pos ⟨by omega, d.2.2⟩]
      · right
        refine ⟨by omega, ?_⟩
        simp only [decoderune, at_, t2, t3, t4, t5, locb, hicb, rune3Max, maxRune,
          dec4_eq, List.getD_cons_zero, List.getD_cons_succ, List.length_cons]
        rw [if_neg c2, if_neg c3, if_pos c4]
        split_ifs with a b
        · exact absurd ⟨⟨a.2.1, a.2.2.1, a.2.2.2⟩, by omega, b.2⟩ d
        · rfl
        · rfl
  · right
    refine ⟨by omega, ?_⟩
    simp only [decoderune, t2, t3, t4, t5]
    rw [if_neg c2, if_neg c3, if_neg c4]

/-! ## Properties of one decoding step -/

theorem rangeNext_width (s0 : Fin 256) (rest : GoString) :
    1 ≤ (rangeNext (s0 :: rest)).2 ∧ (rangeNext (s0 :: rest)).2 ≤ rest.length + 1 := by
  rcases rangeNext_cases s0 rest with ⟨_, h⟩ | ⟨s1, r, e, _, _, _, _, _, h⟩ |
    ⟨s1, s2, r, e, _, _, _, _, _, _, _, _, h⟩ |
    ⟨s1, s2, s3, r, e, _, _, _, _, _, _, _, _, _, _, h⟩ | ⟨_, h⟩ <;>
  rw [h] <;> try subst e
  all_goals simp

theorem rangeNext_validRune (s0 : Fin 256) (rest : GoString) :
    validRune (rangeNext (s0 :: rest)).1 := by
  unfold validRune maxRune surrogateMin surrogateMax
  rcases rangeNext_cases s0 rest with ⟨_, h⟩ | ⟨s1, r, e, _, _, _, _, _, h⟩ |
    ⟨s1, s2, r, e, _, _, _, _, _, _, _, _, h⟩ |
    ⟨s1, s2, s3, r, e, _, _, _, _, _, _, _, _, _, _, h⟩ | ⟨_, h⟩ <;>
  rw [h] <;> simp only [runeError] <;> omega

/-- A step that did not hit an undecodable byte read exactly the encoding of
the rune it returns. -/
theorem encoderune_rangeNext (s0 : Fin 256) (rest : GoString)
    (hok : rangeNext (s0 :: rest) ≠ (runeError, 1)) :
    encoderune (rangeNext (s0 :: rest)).1 = (s0 :: rest).take (rangeNext (s0 :: rest)).2 := by
  rcases rangeNext_cases s0 rest with ⟨h0, h⟩ | ⟨s1, r, e, _, _, _, _, _, h⟩ |
    ⟨s1, s2, r, e, _, _, _, _, _, _, _, hs, h⟩ |
    ⟨s1, s2, s3, r, e, _, _, _, _, _, _, _, _, _, _, h⟩ | ⟨_, h⟩
  · rw [h]
    simp only [List.take_succ_cons, List.take_zero]
    rw [encoderune_1 _ h0]
    congr 1
    apply Fin.ext
    rw [byte_val]; omega
  · rw [h]; subst e
    simp only [List.take_succ_cons, List.take_zero]
    rw [encoderune_2 _ (by omega) (by omega)]
    congr 1
    · apply Fin.ext; rw [byte_val]; omega
    · congr 1
      apply Fin.ext; rw [byte_val]; omega
  · rw [h]; subst e
    simp only [List.take_succ_cons, List.take_zero]
    rw [encoderune_3 _ (by omega) (by omega) (by simp only [surrogateMin, surrogateMax]; exact hs)]
    congr 1
    · apply Fin.ext; rw [byte_val]; omega
    · congr 1
      · apply Fin.ext; rw [byte_val]; omega
      · congr 1
        apply Fin.ext; rw [byte_val]; omega
  · rw [h]; subst e
    simp only [List.take_succ_cons, List.take_zero]
    rw [encoderune_4 _ (by omega) (by omega)]
    congr 1
    · apply Fin.ext; rw [byte_val]; omega
    · congr 1
      · apply Fin.ext; rw [byte_val]; omega
      · congr 1
        · apply Fin.ext; rw [byte_val]; omega
        · congr 1
          apply Fin.ext; rw [byte_val]; omega
  · exact absurd h hok


/-! ## Whole strings -/

theorem drop_rangeNext_length (s0 : Fin 256) (rest : GoString) :
    ((s0 :: rest).drop (rangeNext (s0 :: rest)).2).length ≤ rest.length := by
  have h := rangeNext_width s0 rest
  rw [List.length_drop, List.length_cons]
  omega

/-- More fuel than bytes changes nothing: the loop ends at the end of the
string. -/
theorem rangeRunes_fuel (n : Nat) :
    ∀ (m : Nat) (s : GoString), s.length ≤ n → s.length ≤ m →
      rangeRunes n s = rangeRunes m s := by
  induction n with
  | zero =>
    intro m s hn _
    have : s = [] := List.length_eq_zero.mp (by omega)
    subst this
    cases m <;> rfl
  | succ n ih =>
    intro m s hn hm
    cases s with
    | nil => cases m <;> rfl
    | cons s0 rest =>
      cases m with
      | zero => simp at hm
      | succ m =>
        have hd := drop_rangeNext_length s0 rest
        simp only [List.length_cons] at hn hm
        simp only [rangeRunes]
        rw [ih m _ (by omega) (by omega)]

theorem stringtoslicerune_nil : stringtoslicerune [] = [] := rfl

theorem stringtoslicerune_cons (s0 : Fin 256) (rest : GoString) :
    stringtoslicerune (s0 :: rest)
      = (rangeNext (s0 :: rest)).1
        :: stringtoslicerune ((s0 :: rest).drop (rangeNext (s0 :: rest)).2) := by
  have hd := drop_rangeNext_length s0 rest
  simp only [stringtoslicerune, List.length_cons, rangeRunes]
  rw [rangeRunes_fuel rest.length _ _ hd (le_refl _)]

theorem rangeRunes_eq (n : Nat) (s : GoString) (h : s.length ≤ n) :
    rangeRunes n s = stringtoslicerune s :=
  rangeRunes_fuel n s.length s h (le_refl _)

/-- The loop of `convertPunctuation` appends the substituted runes of the
rest of the input to the output built so far. -/
theorem convertLoop_eq (n : Nat) :
    ∀ (s : GoString) (output : List Nat), s.length ≤ n →
      convertLoop n s output = output ++ (stringtoslicerune s).map substitute := by
  induction n with
  | zero =>
    intro s output hn
    have : s = [] := List.length_eq_zero.mp (by omega)
    subst this
    simp [convertLoop, stringtoslicerune_nil]
  | succ n ih =>
    intro s output hn
    cases s with
    | nil => simp [convertLoop, stringtoslicerune_nil]
    | cons s0 rest =>
      have hd := drop_rangeNext_length s0 rest
      simp only [List.length_cons] at hn
      rw [stringtoslicerune_cons]
      simp only [convertLoop, List.map_cons, substitute]
      cases hl : punctuationMap.lookup (rangeNext (s0 :: rest)).1 with
      | none =>
        simp only []
        rw [ih _ _ (by omega)]
        simp [substitute]
      | some v =>
        simp only []
        rw [ih _ _ (by omega)]
        simp [substitute]

theorem convertPunctuation_eq (s : GoString) :
    convertPunctuation s = slicerunetostring ((stringtoslicerune s).map substitute) := by
  unfold convertPunctuation
  rw [convertLoop_eq s.length s [] (le_refl _)]
  rfl

theorem slicerunetostring_append (a b : List Nat) :
    slicerunetostring (a ++ b) = slicerunetostring a ++ slicerunetostring b := by
  induction a with
  | nil => rfl
  | cons r a ih => simp [slicerunetostring, ih]

theorem encoderune_length_pos (r : Nat) : 0 < (encoderune r).length := by
  by_cases h : validRune r
  · have := rangeNext_encoderune r h []
    by_contra hc
    have he : encoderune r = [] := List.length_eq_zero.mp (by omega)
    rw [he] at this
    simp [rangeNext, at_, runeSelf, List.getD] at this
  · rw [encoderune_invalid r h]
    decide

/-- Reading back an encoded sequence of scalar values gives the sequence. -/
theorem stringtoslicerune_encode_append (a : List Nat) (h : ∀ r ∈ a, validRune r)
    (t : GoString) :
    stringtoslicerune (slicerunetostring a ++ t) = a ++ stringtoslicerune t := by
  induction a with
  | nil => rfl
  | cons r a ih =>
    have hr : validRune r := h r (List.mem_cons_self _ _)
    have ha : ∀ x ∈ a, validRune x := fun x hx => h x (List.mem_cons_of_mem _ hx)
    have hn := rangeNext_encoderune r hr (slicerunetostring a ++ t)
    have hp := encoderune_length_pos r
    simp only [slicerunetostring, List.append_assoc]
    cases he : encoderune r with
    | nil => rw [he] at hp; simp at hp
    | cons b0 bs =>
      rw [he, List.cons_append] at hn
      rw [List.cons_append, stringtoslicerune_cons, hn]
      simp only [List.cons_append, List.cons.injEq, true_and]
      rw [← List.cons_append, List.drop_left]
      exact ih ha

theorem stringtoslicerune_slicerunetostring (a : List Nat) (h : ∀ r ∈ a, validRune r) :
    stringtoslicerune (slicerunetostring a) = a := by
  have := stringtoslicerune_encode_append a h []
  simpa [stringtoslicerune_nil] using this

theorem stringtoslicerune_validRune (n : Nat) :
    ∀ s : GoString, s.length ≤ n → ∀ r ∈ stringtoslicerune s, validRune r := by
  induction n with
  | zero =>
    intro s hn r hr
    have : s = [] := List.length_eq_zero.mp (by omega)
    subst this
    simp [stringtoslicerune_nil] at hr
  | succ n ih =>
    intro s hn r hr
    cases s with
    | nil => simp [stringtoslicerune_nil] at hr
    | cons s0 rest =>
      have hd := drop_rangeNext_length s0 rest
      simp only [List.length_cons] at hn
      rw [stringtoslicerune_cons, List.mem_cons] at hr
      rcases hr with hr | hr
      · rw [hr]; exact rangeNext_validRune s0 rest
      · exact ih _ (by omega) r hr

theorem validRune_of_mem (s : GoString) : ∀ r ∈ stringtoslicerune s, validRune r :=
  stringtoslicerune_validRune s.length s (le_refl _)

/-! ## The substitution table -/

theorem lookup_mem {k v : Nat} : ∀ (l : List (Nat × Nat)), l.lookup k = some v → (k, v) ∈ l := by
  intro l
  induction l with
  | nil => intro h; simp [List.lookup] at h
  | cons p l ih =>
    intro h
    obtain ⟨a, b⟩ := p
    simp only [List.lookup] at h
    by_cases e : k = a
    · subst e
      simp at h
      subst h
      exact List.mem_cons_self _ _
    · have : (k == a) = false := by simpa using e
      rw [this] at h
      exact List.mem_cons_of_mem _ (ih h)

/-- No value of the table is a key of the table. -/
theorem value_not_key : ∀ p ∈ punctuationMap, punctuationMap.lookup p.2 = none := by
  decide

theorem value_validRune : ∀ p ∈ punctuationMap, validRune p.2 := by
  decide

theorem substitute_idem (r : Nat) : substitute (substitute r) = substitute r := by
  unfold substitute
  cases h : punctuationMap.lookup r with
  | none => simp only [h]
  | some v =>
    have := value_not_key (r, v) (lookup_mem _ h)
    simp only [this]

theorem substitute_validRune (r : Nat) (h : validRune r) : validRune (substitute r) := by
  unfold substitute
  cases hl : punctuationMap.lookup r with
  | none => exact h
  | some v => exact value_validRune (r, v) (lookup_mem _ hl)

theorem map_substitute_validRune (a : List Nat) (h : ∀ r ∈ a, validRune r) :
    ∀ r ∈ a.map substitute, validRune r := by
  intro r hr
  rcases List.mem_map.mp hr with ⟨x, hx, rfl⟩
  exact substitute_validRune x (h x hx)

/-- The code points of the result are the substituted code points of the
input. -/
theorem stringtoslicerune_convertPunctuation (s : GoString) :
    stringtoslicerune (convertPunctuation s) = (stringtoslicerune s).map substitute := by
  rw [convertPunctuation_eq]
  exact stringtoslicerune_slicerunetostring _
    (map_substitute_validRune _ (validRune_of_mem s))

/-! ## Valid UTF-8 -/

theorem validLoop_encode (n : Nat) :
    ∀ s : GoString, s.length ≤ n → validLoop n s = true →
      slicerunetostring (stringtoslicerune s) = s := by
  induction n with
  | zero =>
    intro s hn _
    have : s = [] := List.length_eq_zero.mp (by omega)
    subst this
    rfl
  | succ n ih =>
    intro s hn hv
    cases s with
    | nil => rfl
    | cons s0 rest =>
      have hd := drop_rangeNext_length s0 rest
      simp only [List.length_cons] at hn
      simp only [validLoop] at hv
      by_cases he : rangeNext (s0 :: rest) = (runeError, 1)
      · simp [he] at hv
      · rw [if_neg he] at hv
        rw [stringtoslicerune_cons]
        simp only [slicerunetostring]
        rw [ih _ (by omega) hv, encoderune_rangeNext s0 rest he, List.take_append_drop]

/-- Valid UTF-8 survives the round trip through `[]rune`. -/
theorem slicerunetostring_stringtoslicerune (s : GoString) (h : validString s = true) :
    slicerunetostring (stringtoslicerune s) = s :=
  validLoop_encode s.length s (le_refl _) h

theorem validLoop_slicerunetostring (a : List Nat) (h : ∀ r ∈ a, validRune r) :
    ∀ n, (slicerunetostring a).length ≤ n → validLoop n (slicerunetostring a) = true := by
  induction a with
  | nil => intro n _; cases n <;> rfl
  | cons r a ih =>
    intro n hn
    have hr : validRune r := h r (List.mem_cons_self _ _)
    have ha : ∀ x ∈ a, validRune x := fun x hx => h x (List.mem_cons_of_mem _ hx)
    have hnx := rangeNext_encoderune r hr (slicerunetostring a)
    have hp := encoderune_length_pos r
    simp only [slicerunetostring] at hn ⊢
    cases he : encoderune r with
    | nil => rw [he] at hp; simp at hp
    | cons b0 bs =>
      rw [he, List.cons_append] at hnx
      rw [he] at hn
      cases n with
      | zero => simp at hn
      | succ n =>
        rw [List.cons_append]
        simp only [validLoop]
        have hne : rangeNext (b0 :: (bs ++ slicerunetostring a)) ≠ (runeError, 1) := by
          rw [hnx]
          intro hc
          have h2 : (b0 :: bs).length = 1 := (Prod.mk.inj hc).2
          have h1 : r = runeError := (Prod.mk.inj hc).1
          rw [← he, h1] at h2
          revert h2
          decide
        rw [if_neg hne, hnx, ← List.cons_append, List.drop_left]
        apply ih ha
        simp only [List.cons_append, List.length_cons, List.length_append] at hn
        omega

/-- Every string `string(a)` made from runes is valid UTF-8. -/
theorem validString_slicerunetostring (a : List Nat) (h : ∀ r ∈ a, validRune r) :
    validString (slicerunetostring a) = true :=
  validLoop_slicerunetostring a h _ (le_refl _)

theorem validString_iff (s : GoString) :
    validString s = true ↔ ∃ a : List Nat, (∀ r ∈ a, validRune r) ∧ s = slicerunetostring a := by
  constructor
  · intro h
    exact ⟨stringtoslicerune s, validRune_of_mem s, (slicerunetostring_stringtoslicerune s h).symm⟩
  · rintro ⟨a, ha, rfl⟩
    exact validString_slicerunetostring a ha

theorem stringtoslicerune_append (a b : GoString) (h : validString a = true) :
    stringtoslicerune (a ++ b) = stringtoslicerune a ++ stringtoslicerune b := by
  have e := slicerunetostring_stringtoslicerune a h
  have := stringtoslicerune_encode_append (stringtoslicerune a) (validRune_of_mem a) b
  rw [e] at this
  exact this

/-! ## Claims about `convertPunctuation` -/

/-- C1: for every input string, the result is the code-point-wise map of the
input under the substitution function: the result is the encoding of the
substituted code points, and read back as code points its `i`-th one is the
substitution of the `i`-th code point of the input.  Scenarios 1 and 2 of
the specification are instances. -/
theorem C1_convertPunctuation_is_codepoint_map :
    (∀ s : GoString,
      convertPunctuation s = slicerunetostring ((stringtoslicerune s).map substitute) ∧
      stringtoslicerune (convertPunctuation s) = (stringtoslicerune s).map substitute ∧
      ∀ i : Nat, (stringtoslicerune (convertPunctuation s))[i]?
        = ((stringtoslicerune s)[i]?).map
            (fun c => match punctuationMap.lookup c with
              | some replacement => replacement
              | none => c)) ∧
    convertPunctuation (lit "你好，世界！") = lit "你好,世界!" ∧
    convertPunctuation (lit "“测试”：（括号）") = lit "\"测试\":(括号)" := by
  refine ⟨fun s => ⟨convertPunctuation_eq s, stringtoslicerune_convertPunctuation s, ?_⟩,
    by decide, by decide⟩
  intro i
  rw [stringtoslicerune_convertPunctuation, List.getElem?_map]
  rfl

/-- C2: the table has exactly 15 keys (the listed code points, pairwise
different), and `convertPunctuation` sends the one-code-point string of each
key to the one-character string of its target. -/
theorem C2_table_entries :
    punctuationMap.length = 15 ∧
    (punctuationMap.map Prod.fst).Nodup ∧
    punctuationMap.map Prod.fst
      = [0x3002, 0xFF0C, 0x3001, 0xFF1B, 0xFF1A, 0xFF01, 0xFF1F, 0xFF09, 0xFF08, 0x3011,
         0x3010, 0x201C, 0x201D, 0x2018, 0x2019] ∧
    convertPunctuation (slicerunetostring [0x3002]) = lit "." ∧
    convertPunctuation (slicerunetostring [0xFF0C]) = lit "," ∧
    convertPunctuation (slicerunetostring [0x3001]) = lit "," ∧
    convertPunctuation (slicerunetostring [0xFF1B]) = lit ";" ∧
    convertPunctuation (slicerunetostring [0xFF1A]) = lit ":" ∧
    convertPunctuation (slicerunetostring [0xFF01]) = lit "!" ∧
    convertPunctuation (slicerunetostring [0xFF1F]) = lit "?" ∧
    convertPunctuation (slicerunetostring [0xFF09]) = lit ")" ∧
    convertPunctuation (slicerunetostring [0xFF08]) = lit "(" ∧
    convertPunctuation (slicerunetostring [0x3011]) = lit "]" ∧
    convertPunctuation (slicerunetostring [0x3010]) = lit "[" ∧
    convertPunctuation (slicerunetostring [0x201C]) = [byte 0x22] ∧
    convertPunctuation (slicerunetostring [0x201D]) = [byte 0x22] ∧
    convertPunctuation (slicerunetostring [0x2018]) = [byte 0x27] ∧
    convertPunctuation (slicerunetostring [0x2019]) = [byte 0x27] := by
  decide

/-- C3, as stated, fails: the one-byte string `"\xff"` is not valid UTF-8;
`range` reads it as `U+FFFD`, which is not a key, and the result is the
three-byte encoding of `U+FFFD`, not the input. -/
theorem C3_counterexample_invalid_byte :
    (∀ r ∈ stringtoslicerune [byte 0xFF], punctuationMap.lookup r = none) ∧
    convertPunctuation [byte 0xFF] = [byte 0xEF, byte 0xBF, byte 0xBD] ∧
    convertPunctuation [byte 0xFF] ≠ [byte 0xFF] := by
  decide

/-- C3, amended: a valid UTF-8 input string none of whose code points is a
key of the table is returned unchanged. -/
theorem C3_identity_without_keys (s : GoString) (hv : validString s = true)
    (hk : ∀ r ∈ stringtoslicerune s, punctuationMap.lookup r = none) :
    convertPunctuation s = s := by
  rw [convertPunctuation_eq]
  have : (stringtoslicerune s).map substitute = stringtoslicerune s := by
    conv_rhs => rw [← List.map_id (stringtoslicerune s)]
    apply List.map_congr_left
    intro r hr
    simp only [substitute, hk r hr, id]
  rw [this]
  exact slicerunetostring_stringtoslicerune s hv

theorem C3_identity_without_keys_witness :
    validString (lit "你好 wörld 🙂") = true ∧
    (∀ r ∈ stringtoslicerune (lit "你好 wörld 🙂"), punctuationMap.lookup r = none) ∧
    convertPunctuation (lit "你好 wörld 🙂") = lit "你好 wörld 🙂" :=
  ⟨by decide, by decide,
    C3_identity_without_keys (lit "你好 wörld 🙂") (by decide) (by decide)⟩

/-- C4: the result has as many code points as the input, and the empty
string is converted to the empty string. -/
theorem C4_length_preserved :
    (∀ s : GoString,
      (stringtoslicerune (convertPunctuation s)).length = (stringtoslicerune s).length) ∧
    convertPunctuation [] = [] := by
  refine ⟨fun s => ?_, rfl⟩
  rw [stringtoslicerune_convertPunctuation, List.length_map]

/-- C5: `convertPunctuation` is idempotent, and no value of the table is a
key of the table. -/
theorem C5_idempotent :
    (∀ s : GoString, convertPunctuation (convertPunctuation s) = convertPunctuation s) ∧
    (∀ p ∈ punctuationMap, punctuationMap.lookup p.2 = none) := by
  refine ⟨fun s => ?_, value_not_key⟩
  rw [convertPunctuation_eq (convertPunctuation s), stringtoslicerune_convertPunctuation,
    convertPunctuation_eq s, List.map_map]
  congr 1
  apply List.map_congr_left
  intro r _
  exact substitute_idem r

theorem convertPunctuation_append (a b : GoString) (ha : validString a = true) :
    convertPunctuation (a ++ b) = convertPunctuation a ++ convertPunctuation b := by
  rw [convertPunctuation_eq, convertPunctuation_eq a, convertPunctuation_eq b,
    stringtoslicerune_append a b ha, List.map_append, slicerunetostring_append]

/-- Distribution over `++` needs the left string to end at a code point
boundary: cut inside the three bytes of `你` (`E4 BD A0`), each piece is read
as undecodable bytes. -/
theorem convertPunctuation_append_cut_encoding :
    convertPunctuation ([byte 0xE4] ++ [byte 0xBD, byte 0xA0]) = lit "你" ∧
    convertPunctuation [byte 0xE4] ++ convertPunctuation [byte 0xBD, byte 0xA0]
      = slicerunetostring [runeError, runeError, runeError] := by
  decide

/-- C9: `convertPunctuation` distributes over concatenation of sequences of
code points: when `a` is a sequence of code points (valid UTF-8),
`convertPunctuation (a ++ b) = convertPunctuation a ++ convertPunctuation b`
for every `b`, so the result at a position depends on the code point at that
position only. -/
theorem C9_distributes_over_concatenation (a b : GoString) (ha : validString a = true) :
    convertPunctuation (a ++ b) = convertPunctuation a ++ convertPunctuation b := by
  rw [convertPunctuation_eq, convertPunctuation_eq a, convertPunctuation_eq b,
    stringtoslicerune_append a b ha, List.map_append, slicerunetostring_append]

theorem C9_distributes_over_concatenation_witness :
    validString (lit "你好，") = true ∧
    convertPunctuation (lit "你好，" ++ lit "世界！")
      = convertPunctuation (lit "你好，") ++ convertPunctuation (lit "世界！") :=
  ⟨by decide, C9_distributes_over_concatenation (lit "你好，") (lit "世界！") (by decide)⟩

/-- The same over sequences of runes, with no side condition: `string(a)` is
always valid UTF-8. -/
theorem convertPunctuation_string_append (a b : List Nat) :
    convertPunctuation (slicerunetostring (a ++ b))
      = convertPunctuation (slicerunetostring a) ++ convertPunctuation (slicerunetostring b) := by
  have hv : validString (slicerunetostring a) = true := by
    have e : slicerunetostring a
        = slicerunetostring (a.map (fun r => if validRune r then r else runeError)) := by
      induction a with
      | nil => rfl
      | cons r a ih =>
        simp only [slicerunetostring, List.map_cons, ← ih]
        by_cases hr : validRune r
        · rw [if_pos hr]
        · rw [if_neg hr, encoderune_invalid r hr]
    rw [e]
    apply validString_slicerunetostring
    intro r hr
    rcases List.mem_map.mp hr with ⟨x, _, rfl⟩
    by_cases hx : validRune x
    · rw [if_pos hx]; exact hx
    · rw [if_neg hx]; decide
  rw [slicerunetostring_append]
  exact convertPunctuation_append _ _ hv

/-! ## The output file name -/

theorem HasSuffix_iff (s suffix : GoString) : HasSuffix s suffix = true ↔ suffix <:+ s := by
  simp only [HasSuffix, Bool.and_eq_true, decide_eq_true_eq, beq_iff_eq]
  constructor
  · rintro ⟨_, h⟩
    refine ⟨s.take (s.length - suffix.length), ?_⟩
    have e := List.take_append_drop (s.length - suffix.length) s
    rw [h] at e
    exact e
  · rintro ⟨t, rfl⟩
    refine ⟨by simp, ?_⟩
    have : (t ++ suffix).length - suffix.length = t.length := by simp
    rw [this, List.drop_left]

theorem TrimSuffix_append (b suffix : GoString) : TrimSuffix (b ++ suffix) suffix = b := by
  have h : HasSuffix (b ++ suffix) suffix = true := (HasSuffix_iff _ _).mpr ⟨b, rfl⟩
  have e : (b ++ suffix).length - suffix.length = b.length := by simp
  simp only [TrimSuffix, h, if_true, e, List.take_left]

theorem TrimSuffix_of_not_suffix (s suffix : GoString) (h : ¬ suffix <:+ s) :
    TrimSuffix s suffix = s := by
  have : HasSuffix s suffix = false := by
    cases e : HasSuffix s suffix with
    | false => rfl
    | true => exact absurd ((HasSuffix_iff _ _).mp e) h
  simp [TrimSuffix, this]

theorem TrimSuffix_length (s suffix : GoString) :
    s.length ≤ (TrimSuffix s suffix).length + suffix.length := by
  unfold TrimSuffix
  split_ifs
  · rw [List.length_take]; omega
  · omega

/-- C6: the derived output path is the input path with one trailing `.txt`
removed when it ends with `.txt`, and the input path itself otherwise,
followed by `_converted.txt`; `notes.txt` gives `notes_converted.txt` and
`data` gives `data_converted.txt`. -/
theorem C6_output_path :
    (∀ b : GoString, outputFile (b ++ lit ".txt") = b ++ lit "_converted.txt") ∧
    (∀ p : GoString, ¬ lit ".txt" <:+ p → outputFile p = p ++ lit "_converted.txt") ∧
    outputFile (lit "notes.txt") = lit "notes_converted.txt" ∧
    outputFile (lit "data") = lit "data_converted.txt" ∧
    outputFile (lit "a.txt.txt") = lit "a.txt_converted.txt" := by
  refine ⟨fun b => ?_, fun p h => ?_, by decide, by decide, by decide⟩
  · rw [outputFile, TrimSuffix_append]
  · rw [outputFile, TrimSuffix_of_not_suffix p _ h]

theorem C6_output_path_witness :
    ¬ lit ".txt" <:+ lit "data" ∧ outputFile (lit "data") = lit "data" ++ lit "_converted.txt" :=
  ⟨by decide, C6_output_path.2.1 (lit "data") (by decide)⟩

/-- C10: the derived output path is never the input path. -/
theorem C10_output_path_differs (p : GoString) : outputFile p ≠ p := by
  intro h
  have h1 := TrimSuffix_length p (lit ".txt")
  have h2 : (outputFile p).length = (TrimSuffix p (lit ".txt")).length + 14 := by
    rw [outputFile, List.length_append]
    rfl
  have h3 : (lit ".txt").length = 4 := rfl
  rw [h] at h2
  omega

/-! ## The buffered writer only adds writes to the trace -/

theorem fileWrite_trace (env : Env) (name : GoString) (w : Writer) (data : GoString) :
    ∃ d, (fileWrite env name w data).1.trace = w.trace ++ [Event.write name d] := by
  unfold fileWrite
  cases env.writeFault w.calls with
  | none => exact ⟨data, rfl⟩
  | some p => exact ⟨data.take p.1, rfl⟩

theorem Flush_trace (env : Env) (name : GoString) (w : Writer) :
    ∃ ws, (Flush env name w).1.trace = w.trace ++ ws ∧ ∀ e ∈ ws, Event.isWrite e = true := by
  unfold Flush
  cases he : w.err with
  | some e => exact ⟨[], by simp, by simp⟩
  | none =>
    simp only []
    split_ifs with hb
    · exact ⟨[], by simp, by simp⟩
    · obtain ⟨d, hd⟩ := fileWrite_trace env name w w.buf
      rcases hf : fileWrite env name w w.buf with ⟨w1, n, _ | e⟩
      · rw [hf] at hd
        exact ⟨[Event.write name d], hd, by simp [Event.isWrite]⟩
      · rw [hf] at hd
        exact ⟨[Event.write name d], hd, by simp [Event.isWrite]⟩

theorem writeStringLoop_trace (env : Env) (name : GoString) (fuel : Nat) :
    ∀ (w : Writer) (s : GoString),
      ∃ ws, (writeStringLoop env name fuel w s).1.trace = w.trace ++ ws ∧
        ∀ e ∈ ws, Event.isWrite e = true := by
  induction fuel with
  | zero => intro w s; exact ⟨[], by simp [writeStringLoop], by simp⟩
  | succ fuel ih =>
    intro w s
    simp only [writeStringLoop]
    split_ifs with h1 h2
    · obtain ⟨d, hd⟩ := fileWrite_trace env name w s
      rcases hf : fileWrite env name w s with ⟨w1, n, e⟩
      rw [hf] at hd
      simp only [] at hd ⊢
      obtain ⟨ws, h3, h4⟩ := ih { w1 with err := e } (s.drop n)
      refine ⟨Event.write name d :: ws, ?_, ?_⟩
      · rw [h3]; simp only [hd]; simp
      · intro x hx
        rcases List.mem_cons.mp hx with rfl | hx
        · rfl
        · exact h4 x hx
    · obtain ⟨ws1, h5, h6⟩ := Flush_trace env name
        { w with buf := w.buf ++ s.take (min (defaultBufSize - w.buf.length) s.length) }
      obtain ⟨ws, h3, h4⟩ := ih (Flush env name
        { w with buf := w.buf ++ s.take (min (defaultBufSize - w.buf.length) s.length) }).1
        (s.drop (min (defaultBufSize - w.buf.length) s.length))
      refine ⟨ws1 ++ ws, ?_, ?_⟩
      · rw [h3, h5]; simp
      · intro x hx
        rcases List.mem_append.mp hx with hx | hx
        · exact h6 x hx
        · exact h4 x hx
    · exact ⟨[], by simp, by simp⟩

theorem WriteString_trace (env : Env) (name : GoString) (w : Writer) (s : GoString) :
    ∃ ws, (WriteString env name w s).1.trace = w.trace ++ ws ∧
      ∀ e ∈ ws, Event.isWrite e = true := by
  obtain ⟨ws, h1, h2⟩ := writeStringLoop_trace env name 2 w s
  refine ⟨ws, ?_, h2⟩
  unfold WriteString
  rcases hl : writeStringLoop env name 2 w s with ⟨w1, s1⟩
  rw [hl] at h1
  simp only [] at h1 ⊢
  cases w1.err <;> exact h1

theorem scanLoop_trace (env : Env) (name : GoString) (lines : List GoString) :
    ∀ w : Writer, ∃ ws, (scanLoop env name lines w).1.trace = w.trace ++ ws ∧
      ∀ e ∈ ws, Event.isWrite e = true := by
  induction lines with
  | nil => intro w; exact ⟨[], by simp [scanLoop], by simp⟩
  | cons line more ih =>
    intro w
    obtain ⟨ws1, h1, h2⟩ := WriteString_trace env name w (convertPunctuation line ++ lit "\n")
    simp only [scanLoop]
    rcases hw : WriteString env name w (convertPunctuation line ++ lit "\n") with ⟨w1, _ | e⟩
    · rw [hw] at h1
      simp only [] at h1 ⊢
      obtain ⟨ws, h3, h4⟩ := ih w1
      refine ⟨ws1 ++ ws, ?_, ?_⟩
      · rw [h3, h1]; simp
      · intro x hx
        rcases List.mem_append.mp hx with hx | hx
        · exact h2 x hx
        · exact h4 x hx
    · rw [hw] at h1
      exact ⟨ws1, h1, h2⟩

/-! ## The shape of a run -/

theorem main_usage (env : Env) (args : List GoString) (h : args.length < 2) :
    main env args = [Event.print (lit "Usage: stripe_char <input_file>\n")] := by
  simp only [main, h, if_true]

theorem main_open_error (env : Env) (args : List GoString) (e : GoString)
    (h : 2 ≤ args.length) (ho : env.openFile (args.getD 1 []) = Except.error e) :
    main env args = [Event.openFile (args.getD 1 []) false,
      Event.print (lit "Error opening file: " ++ e ++ lit "\n")] := by
  have h' : ¬ args.length < 2 := by omega
  simp only [main, h', if_false, ho]

theorem main_create_error (env : Env) (args : List GoString) (input e : GoString)
    (h : 2 ≤ args.length) (ho : env.openFile (args.getD 1 []) = Except.ok input)
    (hc : env.createFile (outputFile (args.getD 1 [])) = some e) :
    main env args = [Event.openFile (args.getD 1 []) true,
      Event.createFile (outputFile (args.getD 1 [])) false,
      Event.print (lit "Error creating output file: " ++ e ++ lit "\n"),
      Event.close (args.getD 1 [])] := by
  have h' : ¬ args.length < 2 := by omega
  have hname : TrimSuffix (args.getD 1 []) (lit ".txt") ++ lit "_converted.txt"
      = outputFile (args.getD 1 []) := rfl
  simp only [main, h', if_false, ho, hname, hc]

/-- Once the output file is created, the rest of the run consists of writes
to it, one message, and the two deferred closes. -/
theorem main_created (env : Env) (args : List GoString) (input : GoString)
    (h : 2 ≤ args.length) (ho : env.openFile (args.getD 1 []) = Except.ok input)
    (hc : env.createFile (outputFile (args.getD 1 [])) = none) :
    ∃ ws text, main env args
        = [Event.openFile (args.getD 1 []) true,
            Event.createFile (outputFile (args.getD 1 [])) true]
          ++ ws ++ [Event.print text, Event.close (outputFile (args.getD 1 [])),
            Event.close (args.getD 1 [])] ∧
      ∀ e ∈ ws, Event.isWrite e = true := by
  have h' : ¬ args.length < 2 := by omega
  have hname : TrimSuffix (args.getD 1 []) (lit ".txt") ++ lit "_converted.txt"
      = outputFile (args.getD 1 []) := rfl
  simp only [main, h', if_false, ho, hname, hc]
  generalize bytesRead env (args.getD 1 []) (outputFile (args.getD 1 [])) input = data
  generalize outputFile (args.getD 1 []) = name
  generalize args.getD 1 [] = inputFile
  have ht0 : (NewWriter [Event.openFile inputFile true, Event.createFile name true]).trace
      = [Event.openFile inputFile true, Event.createFile name true] := rfl
  generalize NewWriter [Event.openFile inputFile true, Event.createFile name true] = w0 at ht0 ⊢
  obtain ⟨ws, h1, h2⟩ := scanLoop_trace env name (scanInput env data).1 w0
  rcases hs : scanLoop env name (scanInput env data).1 w0 with ⟨w1, _ | e⟩
  · rw [hs] at h1
    simp only [] at h1 ⊢
    cases hf : (scanInput env data).2 with
    | some e =>
      simp only []
      exact ⟨ws, _, by rw [h1, ht0], h2⟩
    | none =>
      simp only []
      obtain ⟨ws2, h3, h4⟩ := Flush_trace env name w1
      have hall : ∀ x ∈ ws ++ ws2, Event.isWrite x = true := by
        intro x hx
        rcases List.mem_append.mp hx with hx | hx
        · exact h2 x hx
        · exact h4 x hx
      rcases hfl : Flush env name w1 with ⟨w2, _ | e⟩
      · rw [hfl] at h3
        simp only [] at h3 ⊢
        exact ⟨ws ++ ws2, lit "Conversion complete. Output written to " ++ name ++ lit "\n",
          by rw [h3, h1, ht0]; simp only [List.append_assoc], hall⟩
      · rw [hfl] at h3
        simp only [] at h3 ⊢
        exact ⟨ws ++ ws2, lit "Error flushing output buffer: " ++ e ++ lit "\n",
          by rw [h3, h1, ht0]; simp only [List.append_assoc], hall⟩
  · rw [hs] at h1
    simp only [] at h1 ⊢
    exact ⟨ws, _, by rw [h1, ht0], h2⟩

/-- C8: the output file is created (or truncated) only after an argument was
supplied and the input file was opened successfully.  With fewer than two
entries in `os.Args` the run prints the usage message and does nothing else;
when the input file cannot be opened the run reports the open error and
does nothing else; and whenever a run contains an `os.Create`, it has an
argument, `os.Open` succeeded, and the run starts with that successful open
followed by the one and only create, of the derived output path. -/
theorem C8_create_only_after_open :
    (∀ (env : Env) (args : List GoString), args.length < 2 →
      main env args = [Event.print (lit "Usage: stripe_char <input_file>\n")]) ∧
    (∀ (env : Env) (args : List GoString) (e : GoString), 2 ≤ args.length →
      env.openFile (args.getD 1 []) = Except.error e →
      main env args = [Event.openFile (args.getD 1 []) false,
        Event.print (lit "Error opening file: " ++ e ++ lit "\n")]) ∧
    (∀ (env : Env) (args : List GoString) (name : GoString) (ok : Bool),
      Event.createFile name ok ∈ main env args →
      2 ≤ args.length ∧ (∃ input, env.openFile (args.getD 1 []) = Except.ok input) ∧
      name = outputFile (args.getD 1 []) ∧
      ∃ rest, main env args
          = Event.openFile (args.getD 1 []) true :: Event.createFile name ok :: rest ∧
        ∀ n o, Event.createFile n o ∉ rest) := by
  refine ⟨main_usage, fun env args e h ho => main_open_error env args e h ho, ?_⟩
  intro env args name ok hmem
  by_cases h : args.length < 2
  · rw [main_usage env args h] at hmem
    simp at hmem
  have h2 : 2 ≤ args.length := by omega
  cases ho : env.openFile (args.getD 1 []) with
  | error e =>
    rw [main_open_error env args e h2 ho] at hmem
    simp at hmem
  | ok input =>
    refine ⟨h2, ⟨input, rfl⟩, ?_⟩
    cases hc : env.createFile (outputFile (args.getD 1 [])) with
    | some e =>
      have hm := main_create_error env args input e h2 ho hc
      rw [hm] at hmem
      simp only [List.mem_cons, List.mem_singleton, reduceCtorEq, false_or, or_false,
        Event.createFile.injEq, List.not_mem_nil] at hmem
      obtain ⟨rfl, rfl⟩ := hmem
      exact ⟨rfl, _, hm, by simp⟩
    | none =>
      obtain ⟨ws, text, hm, hw⟩ := main_created env args input h2 ho hc
      have hrest : ∀ n o, Event.createFile n o ∉ ws ++ [Event.print text,
          Event.close (outputFile (args.getD 1 [])), Event.close (args.getD 1 [])] := by
        intro n o hx
        rcases List.mem_append.mp hx with hx | hx
        · have := hw _ hx
          simp [Event.isWrite] at this
        · simp at hx
      rw [hm] at hmem
      simp only [List.cons_append, List.nil_append, List.mem_cons, reduceCtorEq, false_or,
        Event.createFile.injEq] at hmem
      rcases hmem with ⟨rfl, rfl⟩ | hmem
      · exact ⟨rfl, _, by rw [hm]; rfl, hrest⟩
      · exact absurd hmem (hrest name ok)

/-! ## The buffered writer without write faults -/

theorem written_append (name : GoString) (t1 t2 : List Event) :
    written name (t1 ++ t2) = written name t1 ++ written name t2 := by
  induction t1 with
  | nil => rfl
  | cons e t ih =>
    cases e with
    | write n d =>
      rw [List.cons_append]
      simp only [written]
      split_ifs
      · rw [ih, List.append_assoc]
      · exact ih
    | print _ => simpa [written] using ih
    | openFile _ _ => simpa [written] using ih
    | createFile _ _ => simpa [written] using ih
    | close _ => simpa [written] using ih

theorem written_write (name data : GoString) : written name [Event.write name data] = data := by
  simp [written]

theorem fileWrite_ok (env : Env) (hW : ∀ k, env.writeFault k = none) (name : GoString)
    (w : Writer) (data : GoString) :
    fileWrite env name w data
      = ({ w with calls := w.calls + 1, trace := w.trace ++ [Event.write name data] },
          data.length, none) := by
  simp only [fileWrite, hW]

theorem Flush_ok (env : Env) (hW : ∀ k, env.writeFault k = none) (name : GoString)
    (w : Writer) (he : w.err = none) :
    (Flush env name w).2 = none ∧ (Flush env name w).1.err = none ∧
    (Flush env name w).1.buf = [] ∧
    written name (Flush env name w).1.trace = written name w.trace ++ w.buf := by
  unfold Flush
  rw [he]
  simp only []
  split_ifs with hb
  · have : w.buf = [] := List.length_eq_zero.mp hb
    simp [he, this]
  · rw [fileWrite_ok env hW]
    simp [written_append, written_write, he]

theorem writeStringLoop_ok (env : Env) (hW : ∀ k, env.writeFault k = none) (name : GoString)
    (fuel : Nat) : ∀ (w : Writer) (s : GoString), w.err = none →
      (writeStringLoop env name fuel w s).1.err = none ∧
      written name (writeStringLoop env name fuel w s).1.trace
          ++ (writeStringLoop env name fuel w s).1.buf ++ (writeStringLoop env name fuel w s).2
        = written name w.trace ++ w.buf ++ s := by
  induction fuel with
  | zero => intro w s he; exact ⟨he, rfl⟩
  | succ fuel ih =>
    intro w s he
    simp only [writeStringLoop]
    split_ifs with h1 h2
    · rw [fileWrite_ok env hW]
      simp only []
      obtain ⟨a, b⟩ := ih (Writer.mk w.buf none (w.calls + 1)
        (w.trace ++ [Event.write name s])) (s.drop s.length) rfl
      refine ⟨a, ?_⟩
      rw [b]
      have : w.buf = [] := List.length_eq_zero.mp h2
      simp [written_append, written_write, this]
    · obtain ⟨f1, f2, f3, f4⟩ := Flush_ok env hW name
        { w with buf := w.buf ++ s.take (min (defaultBufSize - w.buf.length) s.length) } he
      obtain ⟨a, b⟩ := ih (Flush env name
        { w with buf := w.buf ++ s.take (min (defaultBufSize - w.buf.length) s.length) }).1
        (s.drop (min (defaultBufSize - w.buf.length) s.length)) f2
      refine ⟨a, ?_⟩
      rw [b, f3, f4]
      simp only [List.append_nil, List.append_assoc, List.take_append_drop]
    · exact ⟨he, rfl⟩

theorem Flush_err_none_buf (env : Env) (name : GoString) (w : Writer)
    (h : (Flush env name w).1.err = none) : (Flush env name w).1.buf.length = 0 := by
  unfold Flush at h ⊢
  cases he : w.err with
  | some e => rw [he] at h; simp only [] at h; rw [he] at h; simp at h
  | none =>
    rw [he] at h
    simp only [] at h ⊢
    split_ifs at h ⊢ with hb
    · exact hb
    · rcases hf : fileWrite env name w w.buf with ⟨w1, n, _ | e⟩
      · rfl
      · rw [hf] at h; simp at h

/-- The loop of `WriteString` has ended after two rounds, whatever the
environment does. -/
theorem writeStringLoop_done (env : Env) (name : GoString) (w : Writer) (s : GoString) :
    ¬ ((writeStringLoop env name 2 w s).2.length
          > defaultBufSize - (writeStringLoop env name 2 w s).1.buf.length ∧
        (writeStringLoop env name 2 w s).1.err = none) := by
  have direct : ∀ (w : Writer) (s : GoString),
      ¬ ((s.drop (fileWrite env name w s).2.1).length
            > defaultBufSize - (fileWrite env name w s).1.buf.length ∧
          (fileWrite env name w s).2.2 = none) := by
    intro w s
    unfold fileWrite
    cases env.writeFault w.calls with
    | none => simp
    | some p => simp
  simp only [writeStringLoop]
  split_ifs with h1 h2 h3 h4 h5 h6
  all_goals first
    | exact direct _ _
    | assumption
    | skip
  all_goals first
    | exact absurd h3 (direct w s)
    | exact absurd (Flush_err_none_buf env name _ h5.2) h6

theorem WriteString_ok (env : Env) (hW : ∀ k, env.writeFault k = none) (name : GoString)
    (w : Writer) (s : GoString) (he : w.err = none) :
    (WriteString env name w s).2 = none ∧ (WriteString env name w s).1.err = none ∧
    written name (WriteString env name w s).1.trace ++ (WriteString env name w s).1.buf
      = written name w.trace ++ w.buf ++ s := by
  obtain ⟨a, b⟩ := writeStringLoop_ok env hW name 2 w s he
  unfold WriteString
  rcases hl : writeStringLoop env name 2 w s with ⟨w1, s1⟩
  rw [hl] at a b
  simp only [] at a b ⊢
  rw [a]
  simp only []
  refine ⟨trivial, trivial, ?_⟩
  rw [← b, List.append_assoc]

/-- Without write faults the loop of `main` writes every converted line,
followed by a newline, in order. -/
theorem scanLoop_ok (env : Env) (hW : ∀ k, env.writeFault k = none) (name : GoString)
    (lines : List GoString) : ∀ w : Writer, w.err = none →
      (scanLoop env name lines w).2 = none ∧ (scanLoop env name lines w).1.err = none ∧
      written name (scanLoop env name lines w).1.trace ++ (scanLoop env name lines w).1.buf
        = written name w.trace ++ w.buf
          ++ (lines.map (fun line => convertPunctuation line ++ lit "\n")).flatten := by
  induction lines with
  | nil => intro w he; simp [scanLoop, he]
  | cons line more ih =>
    intro w he
    obtain ⟨a, b, c⟩ := WriteString_ok env hW name w (convertPunctuation line ++ lit "\n") he
    simp only [scanLoop]
    rcases hw : WriteString env name w (convertPunctuation line ++ lit "\n") with ⟨w1, e⟩
    rw [hw] at a b c
    simp only [] at a b c ⊢
    subst a
    simp only []
    obtain ⟨a2, b2, c2⟩ := ih w1 b
    refine ⟨a2, b2, ?_⟩
    rw [c2, c]
    simp only [List.map_cons, List.flatten_cons, List.append_assoc]

/-! ## Lines and newlines -/

theorem IndexByte_some (c : Byte) : ∀ (data : GoString) (i : Nat),
    IndexByte data c = some i → i < data.length ∧ c ∉ data.take i := by
  intro data
  induction data with
  | nil => intro i h; simp [IndexByte] at h
  | cons b rest ih =>
    intro i h
    simp only [IndexByte] at h
    split_ifs at h with hb
    · simp only [Option.some.injEq] at h
      subst h
      simp
    · cases hr : IndexByte rest c with
      | none => rw [hr] at h; simp at h
      | some j =>
        rw [hr] at h
        simp only [Option.map_some', Option.some.injEq] at h
        subst h
        obtain ⟨h1, h2⟩ := ih j hr
        refine ⟨by simp only [List.length_cons]; omega, ?_⟩
        simp only [List.take_succ_cons, List.mem_cons, not_or]
        exact ⟨fun e => hb e.symm, h2⟩

theorem IndexByte_none (c : Byte) : ∀ data : GoString, IndexByte data c = none → c ∉ data := by
  intro data
  induction data with
  | nil => intro _; simp
  | cons b rest ih =>
    intro h
    simp only [IndexByte] at h
    split_ifs at h with hb
    cases hr : IndexByte rest c with
    | none =>
      simp only [List.mem_cons, not_or]
      exact ⟨fun e => hb e.symm, ih hr⟩
    | some j => rw [hr] at h; simp at h

theorem mem_dropCR (x : Byte) (data : GoString) (h : x ∈ dropCR data) : x ∈ data := by
  unfold dropCR at h
  split_ifs at h
  · exact List.mem_of_mem_take h
  · exact h

theorem IndexByte_of_not_mem (c : Byte) : ∀ data : GoString, c ∉ data → IndexByte data c = none := by
  intro data
  induction data with
  | nil => intro _; rfl
  | cons b rest ih =>
    intro h
    simp only [List.mem_cons, not_or] at h
    have hb : ¬ b = c := fun e => h.1 e.symm
    simp only [IndexByte, hb, if_false, ih h.2, Option.map_none']

theorem IndexByte_append (c : Byte) : ∀ (l r : GoString), c ∉ l →
    IndexByte (l ++ c :: r) c = some l.length := by
  intro l
  induction l with
  | nil => intro r _; simp [IndexByte]
  | cons b l ih =>
    intro r h
    simp only [List.mem_cons, not_or] at h
    have hb : ¬ b = c := fun e => h.1 e.symm
    rw [List.cons_append]
    simp only [IndexByte, hb, if_false, ih r h.2, Option.map_some', List.length_cons]

theorem IndexByte_split (c : Byte) : ∀ (data : GoString) (i : Nat),
    IndexByte data c = some i → data = data.take i ++ c :: data.drop (i + 1) := by
  intro data
  induction data with
  | nil => intro i h; simp [IndexByte] at h
  | cons b rest ih =>
    intro i h
    simp only [IndexByte] at h
    split_ifs at h with hb
    · simp only [Option.some.injEq] at h
      subst h
      simp [hb]
    · cases hr : IndexByte rest c with
      | none => rw [hr] at h; simp at h
      | some j =>
        rw [hr] at h
        simp only [Option.map_some', Option.some.injEq] at h
        subst h
        have := ih j hr
        simp only [List.take_succ_cons, List.drop_succ_cons, List.cons_append, List.cons.injEq,
          true_and]
        exact this

theorem ScanLines_token (data : GoString) (atEOF : Bool) (advance : Nat) (token : GoString)
    (h : ScanLines data atEOF = (advance, some token)) :
    1 ≤ advance ∧ (10 : Byte) ∉ token := by
  unfold ScanLines at h
  by_cases h0 : atEOF = true ∧ data.length = 0
  · rw [if_pos h0] at h
    simp at h
  · rw [if_neg h0] at h
    cases hi : IndexByte data 10 with
    | some i =>
      rw [hi] at h
      simp only [Prod.mk.injEq, Option.some.injEq] at h
      obtain ⟨rfl, rfl⟩ := h
      exact ⟨by omega, fun hx => (IndexByte_some 10 data i hi).2 (mem_dropCR _ _ hx)⟩
    | none =>
      rw [hi] at h
      simp only [] at h
      by_cases h1 : atEOF = true
      · rw [if_pos h1] at h
        simp only [Prod.mk.injEq, Option.some.injEq] at h
        obtain ⟨rfl, rfl⟩ := h
        refine ⟨?_, fun hx => IndexByte_none 10 data hi (mem_dropCR _ _ hx)⟩
        by_contra hc
        exact h0 ⟨h1, by omega⟩
      · rw [if_neg h1] at h
        simp at h

/-- More calls of `Scan` than bytes change nothing: the scanner has reached
the end of the input or has stopped with `ErrTooLong`. -/
theorem scanTokens_fuel (n : Nat) : ∀ (m : Nat) (data : GoString),
    data.length ≤ n → data.length ≤ m → scanTokens n data = scanTokens m data := by
  induction n with
  | zero =>
    intro m data hn _
    have : data = [] := List.length_eq_zero.mp (by omega)
    subst this
    cases m with
    | zero => rfl
    | succ m => simp [scanTokens, ScanLines, MaxScanTokenSize]
  | succ n ih =>
    intro m data hn hm
    cases m with
    | zero =>
      have : data = [] := List.length_eq_zero.mp (by omega)
      subst this
      simp [scanTokens, ScanLines, MaxScanTokenSize]
    | succ m =>
      simp only [scanTokens]
      rcases hs : ScanLines (data.take MaxScanTokenSize)
        (decide (data.length < MaxScanTokenSize)) with ⟨advance, _ | token⟩
      · rfl
      · have h1 := (ScanLines_token _ _ advance token hs).1
        have h0 : data.length ≠ 0 := by
          intro h0
          have : data = [] := List.length_eq_zero.mp h0
          subst this
          simp [ScanLines, MaxScanTokenSize] at hs
        simp only []
        rw [ih m (data.drop advance) (by rw [List.length_drop]; omega)
          (by rw [List.length_drop]; omega)]

theorem scanTokens_no_newline (n : Nat) : ∀ (data : GoString),
    ∀ token ∈ (scanTokens n data).1, (10 : Byte) ∉ token := by
  induction n with
  | zero => intro data token h; simp [scanTokens] at h
  | succ n ih =>
    intro data token h
    simp only [scanTokens] at h
    rcases hs : ScanLines (data.take MaxScanTokenSize)
      (decide (data.length < MaxScanTokenSize)) with ⟨advance, _ | tok⟩
    · rw [hs] at h; simp at h
    · rw [hs] at h
      simp only [List.mem_cons] at h
      rcases h with rfl | h
      · exact (ScanLines_token _ _ advance token hs).2
      · exact ih _ token h

theorem scanTokens_nil (n : Nat) : scanTokens n [] = ([], false) := by
  cases n with
  | zero => rfl
  | succ n => simp [scanTokens, ScanLines, MaxScanTokenSize]

/-- A full buffer without a newline: the scanner delivers nothing more and
stops with `ErrTooLong`. -/
theorem scanTokens_tooLong (n : Nat) (data : GoString)
    (hlen : MaxScanTokenSize ≤ data.length) (hno : (10 : Byte) ∉ data.take MaxScanTokenSize) :
    scanTokens (n + 1) data = ([], true) := by
  have h1 : ¬ data.length < MaxScanTokenSize := by omega
  simp only [scanTokens, ScanLines, h1, decide_False, Bool.false_eq_true, false_and, if_false,
    IndexByte_of_not_mem 10 _ hno, Bool.not_false]

theorem splitNewlines_line (l : GoString) (h : (10 : Byte) ∉ l) :
    ∀ (rest acc : GoString),
      splitNewlines (l ++ 10 :: rest) acc = (acc ++ l) :: splitNewlines rest [] := by
  induction l with
  | nil => intro rest acc; simp [splitNewlines]
  | cons b l ih =>
    intro rest acc
    simp only [List.mem_cons, not_or] at h
    have hb : ¬ b = 10 := fun e => h.1 e.symm
    rw [List.cons_append]
    simp only [splitNewlines, hb, if_false]
    rw [ih h.2]
    simp

theorem splitNewlines_flatten (ls : List GoString) (h : ∀ l ∈ ls, (10 : Byte) ∉ l) :
    splitNewlines ((ls.map (fun line => line ++ lit "\n")).flatten) [] = ls := by
  induction ls with
  | nil => rfl
  | cons l ls ih =>
    have e : lit "\n" = [10] := by decide
    simp only [List.map_cons, List.flatten_cons, e, List.append_assoc, List.singleton_append]
    rw [splitNewlines_line l (h l (List.mem_cons_self _ _))]
    simp only [List.nil_append, List.cons.injEq, true_and]
    have := ih (fun x hx => h x (List.mem_cons_of_mem _ hx))
    simpa [e] using this

theorem splitNewlines_no_newline (l : GoString) (h : (10 : Byte) ∉ l) :
    ∀ acc : GoString, splitNewlines l acc = if acc ++ l = [] then [] else [acc ++ l] := by
  induction l with
  | nil => intro acc; simp [splitNewlines]
  | cons b l ih =>
    intro acc
    simp only [List.mem_cons, not_or] at h
    have hb : ¬ b = 10 := fun e => h.1 e.symm
    simp only [splitNewlines, hb, if_false]
    rw [ih h.2]
    simp

/-- When every line of the input, counted up to its newline, is shorter than
the scanner's buffer, the scanner delivers the lines of the text and does
not stop with `ErrTooLong`. -/
theorem scanTokens_of_short (n : Nat) : ∀ (data : GoString), data.length ≤ n →
    (∀ raw ∈ splitNewlines data [], raw.length < MaxScanTokenSize) →
    scanTokens n data = (textLines data, false) := by
  induction n with
  | zero =>
    intro data hn _
    have : data = [] := List.length_eq_zero.mp (by omega)
    subst this
    rfl
  | succ n ih =>
    intro data hn hshort
    by_cases h0 : data = []
    · subst h0
      rw [scanTokens_nil]
      rfl
    have hpos : 0 < data.length := List.length_pos.mpr h0
    cases hi : IndexByte data 10 with
    | some i =>
      have hsplit := IndexByte_split 10 data i hi
      obtain ⟨hlt, hnot⟩ := IndexByte_some 10 data i hi
      have hl : (data.take i).length = i := by rw [List.length_take]; omega
      have hsn : splitNewlines data []
          = data.take i :: splitNewlines (data.drop (i + 1)) [] := by
        conv_lhs => rw [hsplit]
        rw [splitNewlines_line _ hnot]
        rfl
      have hi_lt : i < MaxScanTokenSize := by
        have := hshort (data.take i) (by rw [hsn]; exact List.mem_cons_self _ _)
        omega
      have hbuf : IndexByte (data.take MaxScanTokenSize) 10 = some i := by
        have e : data.take MaxScanTokenSize
            = data.take i ++ 10 :: (data.drop (i + 1)).take (MaxScanTokenSize - (i + 1)) := by
          conv_lhs => rw [hsplit]
          rw [List.take_append_eq_append_take, hl, List.take_of_length_le (by omega)]
          have : MaxScanTokenSize - i = (MaxScanTokenSize - (i + 1)) + 1 := by omega
          rw [this, List.take_succ_cons]
        rw [e, IndexByte_append 10 _ _ hnot, hl]
      have htk : (data.take MaxScanTokenSize).take i = data.take i := by
        rw [List.take_take, Nat.min_eq_left (by omega)]
      have hbl : (data.take MaxScanTokenSize).length ≠ 0 := by
        rw [List.length_take]; simp only [MaxScanTokenSize]; omega
      have hrec := ih (data.drop (i + 1)) (by rw [List.length_drop]; omega)
        (fun raw hr => hshort raw (by rw [hsn]; exact List.mem_cons_of_mem _ hr))
      simp only [scanTokens, ScanLines, hbl, and_false, if_false, hbuf, htk, hrec]
      simp only [textLines, hsn, List.map_cons]
    | none =>
      have hnot := IndexByte_none 10 data hi
      have hsn : splitNewlines data [] = [data] := by
        rw [splitNewlines_no_newline data hnot]
        simp [h0]
      have hlen : data.length < MaxScanTokenSize :=
        hshort data (by rw [hsn]; exact List.mem_singleton_self _)
      have hbuf : data.take MaxScanTokenSize = data := List.take_of_length_le (by omega)
      have hl0 : data.length ≠ 0 := by omega
      simp only [scanTokens, ScanLines, hbuf, hlen, decide_True, hl0, and_false, if_false, hi,
        if_true, List.drop_length, scanTokens_nil]
      simp only [textLines, hsn, List.map_cons, List.map_nil]

theorem scanFile_of_short (data : GoString)
    (hshort : ∀ raw ∈ splitNewlines data [], raw.length < MaxScanTokenSize) :
    scanFile data = (textLines data, false) :=
  scanTokens_of_short data.length data (le_refl _) hshort

theorem textLines_no_newline (data : GoString)
    (hshort : ∀ raw ∈ splitNewlines data [], raw.length < MaxScanTokenSize) :
    ∀ line ∈ textLines data, (10 : Byte) ∉ line := by
  intro line hl
  have h := scanTokens_no_newline data.length data line
  have e : (scanTokens data.length data).1 = textLines data := by
    rw [scanTokens_of_short data.length data (le_refl _) hshort]
  rw [e] at h
  exact h hl

/-- A line that fills the scanner's buffer before its newline ends the scan
with `ErrTooLong`. -/
theorem scanTokens_of_long (n : Nat) : ∀ (data : GoString), data.length ≤ n →
    (∃ raw ∈ splitNewlines data [], MaxScanTokenSize ≤ raw.length) →
    (scanTokens n data).2 = true := by
  induction n with
  | zero =>
    intro data hn h
    have : data = [] := List.length_eq_zero.mp (by omega)
    subst this
    obtain ⟨raw, hr, _⟩ := h
    simp [splitNewlines] at hr
  | succ n ih =>
    intro data hn h
    obtain ⟨raw, hr, hlong⟩ := h
    by_cases h0 : data = []
    · subst h0
      simp [splitNewlines] at hr
    have hpos : 0 < data.length := List.length_pos.mpr h0
    cases hi : IndexByte data 10 with
    | some i =>
      have hsplit := IndexByte_split 10 data i hi
      obtain ⟨hlt, hnot⟩ := IndexByte_some 10 data i hi
      have hl : (data.take i).length = i := by rw [List.length_take]; omega
      have hsn : splitNewlines data []
          = data.take i :: splitNewlines (data.drop (i + 1)) [] := by
        conv_lhs => rw [hsplit]
        rw [splitNewlines_line _ hnot]
        rfl
      by_cases hi_lt : i < MaxScanTokenSize
      · have hbuf : IndexByte (data.take MaxScanTokenSize) 10 = some i := by
          have e : data.take MaxScanTokenSize
              = data.take i ++ 10 :: (data.drop (i + 1)).take (MaxScanTokenSize - (i + 1)) := by
            conv_lhs => rw [hsplit]
            rw [List.take_append_eq_append_take, hl, List.take_of_length_le (by omega)]
            have : MaxScanTokenSize - i = (MaxScanTokenSize - (i + 1)) + 1 := by omega
            rw [this, List.take_succ_cons]
          rw [e, IndexByte_append 10 _ _ hnot, hl]
        have hbl : (data.take MaxScanTokenSize).length ≠ 0 := by
          rw [List.length_take]; simp only [MaxScanTokenSize]; omega
        have hin : raw ∈ splitNewlines (data.drop (i + 1)) [] := by
          rw [hsn, List.mem_cons] at hr
          rcases hr with rfl | hr
          · omega
          · exact hr
        have hrec := ih (data.drop (i + 1)) (by rw [List.length_drop]; omega) ⟨raw, hin, hlong⟩
        simp only [scanTokens, ScanLines, hbl, and_false, if_false, hbuf, hrec]
      · have hno : (10 : Byte) ∉ data.take MaxScanTokenSize := by
          intro hx
          have e : data.take MaxScanTokenSize = (data.take i).take MaxScanTokenSize := by
            rw [List.take_take, Nat.min_eq_left (by omega)]
          rw [e] at hx
          exact hnot (List.mem_of_mem_take hx)
        rw [scanTokens_tooLong n data (by omega) hno]
    | none =>
      have hnot := IndexByte_none 10 data hi
      have hsn : splitNewlines data [] = [data] := by
        rw [splitNewlines_no_newline data hnot]
        simp [h0]
      rw [hsn, List.mem_singleton] at hr
      subst hr
      rw [scanTokens_tooLong n raw hlong (fun hx => hnot (List.mem_of_mem_take hx))]

/-- The scanner stops with `ErrTooLong` exactly when some line of the input
occupies `MaxScanTokenSize` bytes or more before its newline. -/
theorem scanFile_tooLong_iff (data : GoString) :
    (scanFile data).2 = true
      ↔ ∃ raw ∈ splitNewlines data [], MaxScanTokenSize ≤ raw.length := by
  constructor
  · intro h
    by_contra hc
    have hshort : ∀ raw ∈ splitNewlines data [], raw.length < MaxScanTokenSize := by
      intro raw hr
      by_contra hlt
      exact hc ⟨raw, hr, by omega⟩
    rw [scanFile_of_short data hshort] at h
    simp at h
  · intro h
    exact scanTokens_of_long data.length data (le_refl _) h

/-! ## `convertPunctuation` neither adds nor removes a newline -/

/-- A rune below `runeSelf` comes from the byte of the same value. -/
theorem ascii_of_mem_stringtoslicerune (n : Nat) : ∀ (s : GoString), s.length ≤ n →
    ∀ r ∈ stringtoslicerune s, r < 128 → byte r ∈ s := by
  induction n with
  | zero =>
    intro s hn r hr _
    have : s = [] := List.length_eq_zero.mp (by omega)
    subst this
    simp [stringtoslicerune_nil] at hr
  | succ n ih =>
    intro s hn r hr hlt
    cases s with
    | nil => simp [stringtoslicerune_nil] at hr
    | cons s0 rest =>
      have hd := drop_rangeNext_length s0 rest
      simp only [List.length_cons] at hn
      rw [stringtoslicerune_cons, List.mem_cons] at hr
      rcases hr with hr | hr
      · rcases rangeNext_cases s0 rest with ⟨h0, h⟩ | ⟨s1, t, e, _, _, _, _, _, h⟩ |
          ⟨s1, s2, t, e, _, _, _, _, _, _, _, _, h⟩ |
          ⟨s1, s2, s3, t, e, _, _, _, _, _, _, _, _, _, _, h⟩ | ⟨_, h⟩
        · rw [h] at hr
          simp only [] at hr
          have : byte r = s0 := by
            apply Fin.ext
            rw [byte_val, hr]
            omega
          rw [this]
          exact List.mem_cons_self _ _
        all_goals
          rw [h] at hr
          simp only [runeError] at hr
          omega
      · exact List.mem_of_mem_drop (ih _ (by omega) r hr hlt)

theorem value_ne_newline : ∀ p ∈ punctuationMap, p.2 ≠ 10 := by
  decide

theorem substitute_eq_newline (r : Nat) (h : substitute r = 10) : r = 10 := by
  unfold substitute at h
  cases hl : punctuationMap.lookup r with
  | none => rw [hl] at h; exact h
  | some v =>
    rw [hl] at h
    simp only [] at h
    exact absurd h (value_ne_newline (r, v) (lookup_mem _ hl))

theorem newline_mem_encoderune (r : Nat) (h : (10 : Byte) ∈ encoderune r) : r = 10 := by
  have key : ∀ x : Nat, (10 : Byte) = byte x → x % 256 = 10 := by
    intro x hx
    have := congrArg Fin.val hx
    rw [byte_val] at this
    exact this.symm
  by_cases hv : validRune r
  · simp only [validRune, maxRune, surrogateMin, surrogateMax] at hv
    by_cases c1 : r < 128
    · rw [encoderune_1 r c1, List.mem_singleton] at h
      have := key _ h
      omega
    by_cases c2 : r < 2048
    · rw [encoderune_2 r (by omega) c2] at h
      simp only [List.mem_cons, List.mem_singleton, List.not_mem_nil, or_false] at h
      rcases h with h | h <;> have := key _ h <;> omega
    by_cases c3 : r < 65536
    · rw [encoderune_3 r (by omega) c3 (by simp only [surrogateMin, surrogateMax]; omega)] at h
      simp only [List.mem_cons, List.mem_singleton, List.not_mem_nil, or_false] at h
      rcases h with h | h | h <;> have := key _ h <;> omega
    · rw [encoderune_4 r (by omega) (by omega)] at h
      simp only [List.mem_cons, List.mem_singleton, List.not_mem_nil, or_false] at h
      rcases h with h | h | h | h <;> have := key _ h <;> omega
  · rw [encoderune_invalid r hv] at h
    have hn : (10 : Byte) ∉ encoderune runeError := by decide
    exact absurd h hn

theorem newline_mem_slicerunetostring (a : List Nat)
    (h : (10 : Byte) ∈ slicerunetostring a) : 10 ∈ a := by
  induction a with
  | nil => simp [slicerunetostring] at h
  | cons r a ih =>
    simp only [slicerunetostring, List.mem_append] at h
    rcases h with h | h
    · rw [newline_mem_encoderune r h]
      exact List.mem_cons_self _ _
    · exact List.mem_cons_of_mem _ (ih h)

/-- A line without a newline is converted to a line without a newline. -/
theorem convertPunctuation_no_newline (s : GoString) (h : (10 : Byte) ∉ s) :
    (10 : Byte) ∉ convertPunctuation s := by
  intro hc
  rw [convertPunctuation_eq] at hc
  have h1 := newline_mem_slicerunetostring _ hc
  rcases List.mem_map.mp h1 with ⟨r, hr, hs⟩
  have h2 := substitute_eq_newline r hs
  subst h2
  have := ascii_of_mem_stringtoslicerune s.length s (le_refl _) 10 hr (by omega)
  exact h this

/-! ## The run on a file -/

theorem scanInput_of_short (env : Env) (data : GoString) (hscan : env.scanFault = none)
    (hshort : ∀ raw ∈ splitNewlines data [], raw.length < MaxScanTokenSize) :
    scanInput env data = (textLines data, none) := by
  simp only [scanInput, hscan, scanFile_of_short data hshort]

theorem scanInput_tooLong (env : Env) (data : GoString) (lines : List GoString)
    (hscan : env.scanFault = none) (h : scanFile data = (lines, true)) :
    scanInput env data = (lines, some ErrTooLong) := by
  simp only [scanInput, hscan, h]

/-- When no call fails but the scanner stops with `ErrTooLong`, the run
reports a read error as its only message: it does not flush and does not
report success. -/
theorem main_tooLong (env : Env) (args : List GoString) (input : GoString)
    (hargs : 2 ≤ args.length)
    (hopen : env.openFile (args.getD 1 []) = Except.ok input)
    (hcreate : env.createFile (outputFile (args.getD 1 [])) = none)
    (hscan : env.scanFault = none)
    (hwrite : ∀ k, env.writeFault k = none)
    (hlong : (scanFile
      (bytesRead env (args.getD 1 []) (outputFile (args.getD 1 [])) input)).2 = true) :
    ∀ text, Event.print text ∈ main env args ↔
      text = lit "Error reading from input file: " ++ ErrTooLong ++ lit "\n" := by
  have h' : ¬ args.length < 2 := by omega
  have hname : TrimSuffix (args.getD 1 []) (lit ".txt") ++ lit "_converted.txt"
      = outputFile (args.getD 1 []) := rfl
  obtain ⟨data, hdata⟩ : ∃ data,
      bytesRead env (args.getD 1 []) (outputFile (args.getD 1 [])) input = data := ⟨_, rfl⟩
  rw [hdata] at hlong
  have hsc : scanInput env data = ((scanFile data).1, some ErrTooLong) :=
    scanInput_tooLong env data _ hscan (Prod.ext rfl hlong)
  have hm : ∃ ws, main env args
      = [Event.openFile (args.getD 1 []) true,
          Event.createFile (outputFile (args.getD 1 [])) true] ++ ws
        ++ [Event.print (lit "Error reading from input file: " ++ ErrTooLong ++ lit "\n"),
            Event.close (outputFile (args.getD 1 [])), Event.close (args.getD 1 [])] ∧
      ∀ e ∈ ws, Event.isWrite e = true := by
    simp only [main, h', if_false, hopen, hname, hcreate, hdata, hsc]
    generalize outputFile (args.getD 1 []) = name
    have hw0 : (NewWriter [Event.openFile (args.getD 1 []) true,
      Event.createFile name true]).err = none := rfl
    have ht0 : (NewWriter [Event.openFile (args.getD 1 []) true,
      Event.createFile name true]).trace
        = [Event.openFile (args.getD 1 []) true, Event.createFile name true] := rfl
    generalize NewWriter [Event.openFile (args.getD 1 []) true,
      Event.createFile name true] = w0 at hw0 ht0 ⊢
    obtain ⟨s1, _, _⟩ := scanLoop_ok env hwrite name (scanFile data).1 w0 hw0
    obtain ⟨ws, h1, h2⟩ := scanLoop_trace env name (scanFile data).1 w0
    rcases hs : scanLoop env name (scanFile data).1 w0 with ⟨w1, e⟩
    rw [hs] at s1 h1
    simp only [] at s1 h1 ⊢
    subst s1
    simp only []
    exact ⟨ws, by rw [h1, ht0], h2⟩
  obtain ⟨ws, hm, hw⟩ := hm
  intro text
  rw [hm]
  simp only [List.cons_append, List.nil_append, List.mem_cons, List.mem_append, reduceCtorEq,
    false_or, Event.print.injEq, List.not_mem_nil, or_false]
  constructor
  · rintro (h | h)
    · have := hw _ h
      simp [Event.isWrite] at this
    · exact h
  · intro h
    exact Or.inr h

/-! ## A line as long as the scanner's buffer -/

theorem longLine_length : longLine.length = 65536 := List.length_replicate _ _

theorem longLine_no_newline : (10 : Byte) ∉ longLine := by
  intro h
  have := List.eq_of_mem_replicate h
  revert this
  decide

theorem longLine_ne_nil : longLine ≠ [] := by
  intro h
  have := congrArg List.length h
  rw [longLine_length] at this
  simp at this

theorem dropCR_of_no_CR (data : GoString) (h : (13 : Byte) ∉ data) : dropCR data = data := by
  unfold dropCR
  rw [if_neg]
  rintro ⟨hpos, hc⟩
  have hlt : data.length - 1 < data.length := by omega
  have hm : data.getD (data.length - 1) 0 ∈ data := by
    rw [List.getD_eq_getElem _ _ hlt]
    exact List.getElem_mem _
  have e : data.getD (data.length - 1) 0 = 13 := by
    apply Fin.ext
    simpa [at_] using hc
  rw [e] at hm
  exact h hm

theorem textLines_longLine : textLines longLine = [longLine] := by
  have hcr : (13 : Byte) ∉ longLine := by
    intro h
    have := List.eq_of_mem_replicate h
    revert this
    decide
  simp only [textLines, splitNewlines_no_newline longLine longLine_no_newline, List.nil_append,
    longLine_ne_nil, if_false, List.map_cons, List.map_nil, dropCR_of_no_CR longLine hcr]

theorem scanFile_longLine : scanFile longLine = ([], true) := by
  have h := scanTokens_tooLong 65535 longLine (by rw [longLine_length]; decide)
    (fun hx => longLine_no_newline (List.mem_of_mem_take hx))
  unfold scanFile
  rw [longLine_length]
  exact h

/-- A run in which the scanner delivers no line and stops with an error:
nothing is written. -/
theorem main_scan_error (env : Env) (args : List GoString) (input e : GoString)
    (h : 2 ≤ args.length) (ho : env.openFile (args.getD 1 []) = Except.ok input)
    (hc : env.createFile (outputFile (args.getD 1 [])) = none)
    (hs : scanInput env (bytesRead env (args.getD 1 []) (outputFile (args.getD 1 [])) input)
      = ([], some e)) :
    main env args = [Event.openFile (args.getD 1 []) true,
      Event.createFile (outputFile (args.getD 1 [])) true,
      Event.print (lit "Error reading from input file: " ++ e ++ lit "\n"),
      Event.close (outputFile (args.getD 1 [])), Event.close (args.getD 1 [])] := by
  have h' : ¬ args.length < 2 := by omega
  have hname : TrimSuffix (args.getD 1 []) (lit ".txt") ++ lit "_converted.txt"
      = outputFile (args.getD 1 []) := rfl
  simp only [main, h', if_false, ho, hname, hc, hs, scanLoop]
  rfl

theorem bytesRead_of_distinct (env : Env) (inputFile outputFile input : GoString)
    (h : env.sameFile inputFile outputFile = false) :
    bytesRead env inputFile outputFile input = input := by
  simp [bytesRead, h]

theorem main_longLine :
    main longLineEnv [lit "stripe_char", lit "long.txt"]
      = [Event.openFile (lit "long.txt") true, Event.createFile (lit "long_converted.txt") true,
         Event.print (lit "Error reading from input file: bufio.Scanner: token too long\n"),
         Event.close (lit "long_converted.txt"), Event.close (lit "long.txt")] := by
  have hs : scanInput longLineEnv (bytesRead longLineEnv
      ([lit "stripe_char", lit "long.txt"].getD 1 [])
      (outputFile ([lit "stripe_char", lit "long.txt"].getD 1 [])) longLine)
      = ([], some ErrTooLong) := by
    rw [bytesRead_of_distinct longLineEnv _ _ longLine rfl]
    exact scanInput_tooLong longLineEnv longLine [] rfl scanFile_longLine
  have hm := main_scan_error longLineEnv [lit "stripe_char", lit "long.txt"] longLine ErrTooLong
    (by decide) rfl rfl hs
  rw [hm]
  decide

theorem written_longLine :
    written (lit "long_converted.txt") (main longLineEnv [lit "stripe_char", lit "long.txt"])
      = [] := by
  rw [main_longLine]
  decide


/-- C7, as stated, fails: the input file is one line of 65536 letters `a`;
it opens, the output file is created, and no read, write or flush fails, yet
the scanner stops with `ErrTooLong`: the run writes nothing to the output
file and reports a read error, while the claim asks for the converted line
followed by a newline. -/
theorem C7_counterexample_long_line :
    longLineEnv.openFile (lit "long.txt") = Except.ok longLine ∧
    longLineEnv.createFile (lit "long_converted.txt") = none ∧
    longLineEnv.scanFault = none ∧
    (∀ k, longLineEnv.writeFault k = none) ∧
    longLine.length = 65536 ∧
    textLines longLine = [longLine] ∧
    main longLineEnv [lit "stripe_char", lit "long.txt"]
      = [Event.openFile (lit "long.txt") true, Event.createFile (lit "long_converted.txt") true,
         Event.print (lit "Error reading from input file: bufio.Scanner: token too long\n"),
         Event.close (lit "long_converted.txt"), Event.close (lit "long.txt")] ∧
    written (lit "long_converted.txt") (main longLineEnv [lit "stripe_char", lit "long.txt"])
      = [] ∧
    written (lit "long_converted.txt") (main longLineEnv [lit "stripe_char", lit "long.txt"])
      ≠ ((textLines longLine).map (fun line => convertPunctuation line ++ lit "\n")).flatten := by
  refine ⟨rfl, rfl, rfl, fun _ => rfl, longLine_length, textLines_longLine, main_longLine,
    written_longLine, ?_⟩
  rw [written_longLine, textLines_longLine]
  intro h
  simp only [List.map_cons, List.map_nil, List.flatten_cons, List.flatten_nil,
    List.append_nil] at h
  have hl := congrArg List.length h
  have e : (lit "\n").length = 1 := by decide
  rw [List.length_append, e, List.length_nil] at hl
  omega

/-- C7, amended: when a run has an argument, the input file opens, the output
file is created, no read, write or flush fails, and every line of the input
occupies fewer than 65536 bytes before its newline (the default token limit
of `bufio.Scanner`, a trailing carriage return included), the bytes written
to the output file are the converted lines of the input, each followed by
one newline, in the order of the input; cut at its newlines the output has
as many lines as the input, the `k`-th being the conversion of the `k`-th
input line; and the run reports success.  The input is what the scanner
reads of the file, after the output file has been created. -/
theorem C7_output_is_converted_lines (env : Env) (args : List GoString) (input : GoString)
    (hargs : 2 ≤ args.length)
    (hopen : env.openFile (args.getD 1 []) = Except.ok input)
    (hcreate : env.createFile (outputFile (args.getD 1 [])) = none)
    (hscan : env.scanFault = none)
    (hwrite : ∀ k, env.writeFault k = none)
    (hshort : ∀ raw ∈ splitNewlines
        (bytesRead env (args.getD 1 []) (outputFile (args.getD 1 [])) input) [],
      raw.length < MaxScanTokenSize) :
    written (outputFile (args.getD 1 [])) (main env args)
      = ((textLines (bytesRead env (args.getD 1 []) (outputFile (args.getD 1 [])) input)).map
          (fun line => convertPunctuation line ++ lit "\n")).flatten ∧
    splitNewlines (written (outputFile (args.getD 1 [])) (main env args)) []
      = (textLines (bytesRead env (args.getD 1 []) (outputFile (args.getD 1 [])) input)).map
          convertPunctuation ∧
    (splitNewlines (written (outputFile (args.getD 1 [])) (main env args)) []).length
      = (textLines
          (bytesRead env (args.getD 1 []) (outputFile (args.getD 1 [])) input)).length ∧
    Event.print (lit "Conversion complete. Output written to "
      ++ outputFile (args.getD 1 []) ++ lit "\n") ∈ main env args := by
  have h' : ¬ args.length < 2 := by omega
  have hname : TrimSuffix (args.getD 1 []) (lit ".txt") ++ lit "_converted.txt"
      = outputFile (args.getD 1 []) := rfl
  obtain ⟨data, hdata⟩ : ∃ data,
      bytesRead env (args.getD 1 []) (outputFile (args.getD 1 [])) input = data := ⟨_, rfl⟩
  rw [hdata] at hshort ⊢
  have hsc := scanInput_of_short env data hscan hshort
  have hm : main env args
      = (Flush env (outputFile (args.getD 1 []))
          (scanLoop env (outputFile (args.getD 1 [])) (textLines data)
            (NewWriter [Event.openFile (args.getD 1 []) true,
              Event.createFile (outputFile (args.getD 1 [])) true])).1).1.trace
        ++ [Event.print (lit "Conversion complete. Output written to "
              ++ outputFile (args.getD 1 []) ++ lit "\n"),
            Event.close (outputFile (args.getD 1 [])), Event.close (args.getD 1 [])] := by
    simp only [main, h', if_false, hopen, hname, hcreate, hdata, hsc]
    generalize outputFile (args.getD 1 []) = name
    have hw0 : (NewWriter [Event.openFile (args.getD 1 []) true,
      Event.createFile name true]).err = none := rfl
    generalize NewWriter [Event.openFile (args.getD 1 []) true,
      Event.createFile name true] = w0 at hw0 ⊢
    obtain ⟨s1, s2, _⟩ := scanLoop_ok env hwrite name (textLines data) w0 hw0
    rcases hs : scanLoop env name (textLines data) w0 with ⟨w1, e⟩
    rw [hs] at s1 s2
    simp only [] at s1 s2 ⊢
    subst s1
    simp only []
    obtain ⟨f1, _⟩ := Flush_ok env hwrite name w1 s2
    rcases hf : Flush env name w1 with ⟨w2, e⟩
    rw [hf] at f1
    simp only [] at f1 ⊢
    subst f1
    rfl
  have hw0 : (NewWriter [Event.openFile (args.getD 1 []) true,
    Event.createFile (outputFile (args.getD 1 [])) true]).err = none := rfl
  obtain ⟨_, s2, s3⟩ := scanLoop_ok env hwrite (outputFile (args.getD 1 [])) (textLines data)
    (NewWriter [Event.openFile (args.getD 1 []) true,
      Event.createFile (outputFile (args.getD 1 [])) true]) hw0
  obtain ⟨_, _, _, f4⟩ := Flush_ok env hwrite (outputFile (args.getD 1 []))
    (scanLoop env (outputFile (args.getD 1 [])) (textLines data)
      (NewWriter [Event.openFile (args.getD 1 []) true,
        Event.createFile (outputFile (args.getD 1 [])) true])).1 s2
  have hwr : written (outputFile (args.getD 1 [])) (main env args)
      = ((textLines data).map (fun line => convertPunctuation line ++ lit "\n")).flatten := by
    rw [hm, written_append, f4, s3]
    simp [written, NewWriter]
  have hlines : ∀ l ∈ (textLines data).map convertPunctuation, (10 : Byte) ∉ l := by
    intro l hl
    rcases List.mem_map.mp hl with ⟨x, hx, rfl⟩
    exact convertPunctuation_no_newline x (textLines_no_newline data hshort x hx)
  have hsplit : splitNewlines (written (outputFile (args.getD 1 [])) (main env args)) []
      = (textLines data).map convertPunctuation := by
    rw [hwr]
    have := splitNewlines_flatten _ hlines
    rw [List.map_map] at this
    exact this
  refine ⟨hwr, hsplit, ?_, ?_⟩
  · rw [hsplit, List.length_map]
  · rw [hm]
    simp

theorem C7_output_is_converted_lines_witness :
    2 ≤ [lit "stripe_char", lit "notes.txt"].length ∧
    sampleEnv.openFile (lit "notes.txt") = Except.ok (lit "你好，世界！\r\n“测试”：（括号）\nlast") ∧
    sampleEnv.createFile (lit "notes_converted.txt") = none ∧
    sampleEnv.scanFault = none ∧
    (∀ k, sampleEnv.writeFault k = none) ∧
    (∀ raw ∈ splitNewlines (lit "你好，世界！\r\n“测试”：（括号）\nlast") [],
      raw.length < MaxScanTokenSize) ∧
    written (lit "notes_converted.txt") (main sampleEnv [lit "stripe_char", lit "notes.txt"])
      = lit "你好,世界!\n\"测试\":(括号)\nlast\n" := by
  have h := (C7_output_is_converted_lines sampleEnv [lit "stripe_char", lit "notes.txt"]
    (lit "你好，世界！\r\n“测试”：（括号）\nlast") (by decide) (by rfl) rfl rfl (fun _ => rfl)
    (by decide)).1
  refine ⟨by decide, by rfl, rfl, rfl, fun _ => rfl, by decide, ?_⟩
  have e1 : outputFile (List.getD [lit "stripe_char", lit "notes.txt"] 1 [])
      = lit "notes_converted.txt" := by decide
  rw [e1] at h
  rw [h]
  decide

theorem C8_create_only_after_open_witness :
    main sampleEnv [lit "stripe_char"]
      = [Event.print (lit "Usage: stripe_char <input_file>\n")] ∧
    main sampleEnv [lit "stripe_char", lit "missing.txt"]
      = [Event.openFile (lit "missing.txt") false,
          Event.print (lit "Error opening file: "
            ++ lit "open missing.txt: no such file or directory" ++ lit "\n")] :=
  ⟨C8_create_only_after_open.1 sampleEnv [lit "stripe_char"] (by decide),
    C8_create_only_after_open.2.1 sampleEnv [lit "stripe_char", lit "missing.txt"]
      (lit "open missing.txt: no such file or directory") (by decide) (by rfl)⟩

end StripeChar
